import Mathlib

/-!
# socket2stdout: the fan-in relay of `socket.go`

A shallow embedding of `Server.Run`, `Server.Stop`, `Server.copyData`,
`stdoutWriter` and `handleConnection`, and the properties of the relay
pipeline proved over it.

Conventions of the embedding:

* a goroutine is a function that returns the list of the effects it performs,
  in program order (its events);
* what the operating system decides (the bytes a connection delivers, the
  outcome of a write, of an accept, of a listen call) is an argument of the
  function that embeds the code;
* channels are modelled by their buffered contents, their capacity and the
  senders blocked on them;
* a write to standard output that hits a broken pipe ends the process, since
  `Run` subscribes to SIGINT and SIGTERM only;
* concurrent execution is a step function over a state that holds the
  remaining events of every task, scheduled by an arbitrary list of choices.
-/

namespace Socket2Stdout

/-! ## Data model -/

/-- One byte of a connection's stream (Go `byte`). -/
abbrev Byte := UInt8

/-- A Record: the `[]byte` that `ReadBytes` returns and the relay channel carries. -/
abbrev Record := List Byte

/-- The delimiter `'\n'` passed to `ReadBytes`. -/
def nl : Byte := 10

/-- Capacity of the relay channel: `make(chan []byte, 1)` in `copyData`. -/
def relayCapacity : Nat := 1

/-- Capacity of the shutdown channel: `make(chan struct{}, 1)` in `New`. -/
def stopCapacity : Nat := 1

/-- The error that ends a connection's stream: `io.EOF` or any other read error. -/
inductive ReadError where
  | eof
  | other (text : String)
  deriving DecidableEq, Repr

/-- A connection as the reader sees it: the bytes it delivers, then the error
that ends it. How the bytes are split over `Read` calls is invisible through
`bufio.Reader.ReadBytes`, so only the stream is kept. -/
structure Conn where
  input : List Byte
  err : ReadError
  deriving DecidableEq, Repr

/-- Effects of one `handleConnection` task, in program order. -/
inductive ConnEvent where
  | gaugeInc
  | gaugeDec
  | linesReadInc
  | send (data : Record)
  | errorLog (msg : String)
  | close
  deriving DecidableEq, Repr

/-! ## The line reader -/

/-- The search of `ReadBytes`: the bytes up to and including the first `delim`,
and the bytes left after it; `none` when the stream holds no `delim`. -/
def readSlice (delim : Byte) : List Byte → Option (List Byte × List Byte)
  | [] => none
  | b :: bs =>
    if b = delim then some ([b], bs)
    else
      match readSlice delim bs with
      | none => none
      | some (line, rest) => some (b :: line, rest)

/-- The call `r.ReadBytes(delim)` of `bufio.Reader` on what is left of a
connection: the data up to and including the first delimiter and a nil error,
or, when the stream ends first, the data read before the error and the error.
The third component is the connection left to read. -/
def ReadBytes (r : Conn) (delim : Byte) : List Byte × Option ReadError × Conn :=
  match readSlice delim r.input with
  | some (line, rest) => (line, none, { r with input := rest })
  | none => (r.input, some r.err, { r with input := [] })

/-- The `err != nil` branch of the loop of `handleConnection`: the error is
logged unless it is `io.EOF`, then the connection is closed. The data returned
with the error is dropped. -/
def onReadError : ReadError → List ConnEvent
  | .eof => [.close]
  | .other text => [.errorLog ("read failed: " ++ text), .close]

/-- The `for` loop of `handleConnection`. Each unit of fuel pays for one
`ReadBytes` call; `none` means the fuel ran out before the loop returned. -/
def handleConnectionLoop : Nat → Conn → Option (List ConnEvent)
  | 0, _ => none
  | fuel + 1, r =>
    match ReadBytes r nl with
    | (_, some err, _) => some (onReadError err)
    | (data, none, r1) =>
      match handleConnectionLoop fuel r1 with
      | none => none
      | some evs => some (.linesReadInc :: .send data :: evs)

/-- The function `handleConnection(conn, buffer)`: the gauge is incremented,
the loop runs, and the deferred decrement runs when the loop returns. -/
def handleConnection (fuel : Nat) (conn : Conn) : Option (List ConnEvent) :=
  match handleConnectionLoop fuel conn with
  | none => none
  | some evs => some (.gaugeInc :: (evs ++ [.gaugeDec]))

/-- The Records a task sends to the relay channel, in order. -/
def sends : List ConnEvent → List Record
  | [] => []
  | .send d :: evs => d :: sends evs
  | _ :: evs => sends evs

/-- Number of increments of the lines-read counter among the events. -/
def linesReadIncs : List ConnEvent → Nat
  | [] => 0
  | .linesReadInc :: evs => linesReadIncs evs + 1
  | _ :: evs => linesReadIncs evs

/-- The events the loop performs for a list of Records: one counter increment
and one send per Record. -/
def forwardEvents : List Record → List ConnEvent
  | [] => []
  | r :: rs => .linesReadInc :: .send r :: forwardEvents rs

/-- A Record is one line: it ends in the delimiter and holds no other one. -/
def IsLine (r : Record) : Prop :=
  ∃ body : List Byte, r = body ++ [nl] ∧ nl ∉ body

/-- The events of the `handleConnection` task of a connection, computed with
one unit of fuel more than the connection has bytes, which is enough for the
loop to return (`handleConnection_connTask`). -/
def connTask (c : Conn) : List ConnEvent :=
  (handleConnection (c.input.length + 1) c).getD []

/-! ## The serializing writer -/

/-- Outcome of one call `os.Stdout.Write(data)`. Either every byte was written
and the error is nil; or the call returned an error after writing `n` bytes;
or the write hit a broken pipe after writing `n` bytes. Standard output is
file descriptor 1 and `Run` asks to be notified of SIGINT and SIGTERM only, so
on a broken pipe the Go runtime raises SIGPIPE and the process exits: that
call does not return to the loop. -/
inductive WriteResult where
  | ok
  | failed (n : Nat) (text : String)
  | sigpipe (n : Nat)
  deriving DecidableEq, Repr

/-- Whether the write call returns to its caller. -/
def WriteResult.returns : WriteResult → Bool
  | .sigpipe _ => false
  | _ => true

/-- Effects of the `stdoutWriter` task, in program order: the call of
`os.Stdout.Write`, the call of `errorLog`, the counter increment; `sigpipe` is
the end of the process on a write to a broken pipe. -/
inductive WriterEvent where
  | write (data : Record)
  | errorLog (msg : String)
  | linesWrittenInc
  | sigpipe
  deriving DecidableEq, Repr

/-- One iteration of the loop of `stdoutWriter`, once `<-buffer` has delivered
`data`: the write call, then the log line when the call returned an error,
then the counter; after a write that ends the process nothing follows. -/
def writerIteration (res : WriteResult) (data : Record) : List WriterEvent :=
  match res with
  | .ok => [.write data, .linesWrittenInc]
  | .failed _ text =>
    [.write data, .errorLog ("failed to write to stdout: " ++ text ++ "\n"), .linesWrittenInc]
  | .sigpipe _ => [.write data, .sigpipe]

/-- The function `stdoutWriter(buffer)` run on the Records the channel delivers,
in the order it delivers them; `out k` is the outcome of write call number `k`
and `k` counts the calls already made. The loop goes on to the next Record
when the write call returns. When the Records are used up the task is blocked
on `<-buffer`. -/
def stdoutWriter (out : Nat → WriteResult) : Nat → List Record → List WriterEvent
  | _, [] => []
  | k, d :: ds =>
    writerIteration (out k) d ++
      (if (out k).returns then stdoutWriter out (k + 1) ds else [])

/-- The data of the write calls among the events, in order. -/
def writeCalls : List WriterEvent → List Record
  | [] => []
  | .write d :: evs => d :: writeCalls evs
  | _ :: evs => writeCalls evs

/-- Number of increments of the lines-written counter among the events. -/
def linesWrittenIncs : List WriterEvent → Nat
  | [] => 0
  | .linesWrittenInc :: evs => linesWrittenIncs evs + 1
  | _ :: evs => linesWrittenIncs evs

/-- Number of log lines among the events. -/
def writerLogs : List WriterEvent → Nat
  | [] => 0
  | .errorLog _ :: evs => writerLogs evs + 1
  | _ :: evs => writerLogs evs

/-- Number of calls that return an error among the first `n` write calls made
from call `k` on. -/
def failures (out : Nat → WriteResult) : Nat → Nat → Nat
  | _, 0 => 0
  | k, n + 1 =>
    (match out k with
      | .failed _ _ => 1
      | _ => 0) + failures out (k + 1) n

/-- Each of the `n` write calls made from call `k` on returns to the loop. -/
def AllReturn (out : Nat → WriteResult) (k n : Nat) : Prop :=
  ∀ j, j < n → (out (k + j)).returns = true

/-- The bytes that reach the output stream in one write call. -/
def bytesWritten (res : WriteResult) (data : Record) : List Byte :=
  match res with
  | .ok => data
  | .failed n _ => data.take n
  | .sigpipe n => data.take n

/-! ## Channels -/

/-- A send on a buffered channel that holds `n` values and has capacity `cap`:
the new content, or `none` when the channel is full and the sender blocks. -/
def chanSend (cap n : Nat) : Option Nat :=
  if n < cap then some (n + 1) else none

/-- State of a channel of `struct{}` values: the number of values in its
buffer and the number of senders blocked in a send on it. -/
structure Chan where
  buf : Nat
  blocked : Nat
  deriving DecidableEq, Repr

/-- A send is issued on the channel: the value goes into the buffer when there
is room, otherwise the sender joins the blocked senders. -/
def chanArrive (cap : Nat) (c : Chan) : Chan :=
  match chanSend cap c.buf with
  | some n => { c with buf := n }
  | none => { c with blocked := c.blocked + 1 }

/-- The statement `select { case <-ch: ... default: }`: whether a value was
received, and the channel afterwards. A receive takes a value out of the
buffer, and the value of a blocked sender, if there is one, moves into the
buffer as that sender completes; with an empty buffer the value is taken from
a blocked sender directly; with neither, the `default` case runs. -/
def chanTryRecv (c : Chan) : Bool × Chan :=
  if 0 < c.buf then
    (true, if 0 < c.blocked then { c with blocked := c.blocked - 1 }
           else { c with buf := c.buf - 1 })
  else if 0 < c.blocked then (true, { c with blocked := c.blocked - 1 })
  else (false, c)

/-! ## The pipeline: connection tasks, relay channel, writer task -/

/-- State of the pipeline that `copyData` builds: one `handleConnection` task
per accepted connection (each given by the events it has left to perform), the
relay channel, the single `stdoutWriter` task (the events left of its current
iteration; none when it waits on `<-buffer`), the output stream, the metrics. -/
structure Sys where
  handlers : List (List ConnEvent)
  buffer : List Record
  writer : List WriterEvent
  calls : Nat
  written : List Record
  stdout : List Byte
  linesRead : Nat
  linesWritten : Nat
  gauge : Int
  logs : List String
  exited : Bool
  deriving DecidableEq, Repr

/-- The task that takes the next step. -/
inductive Task where
  | handler (i : Nat)
  | writer
  deriving DecidableEq, Repr

/-- Effect of one event of a connection task on the shared state; `none` when
the task is blocked (a send on the full relay channel). -/
def connEffect (s : Sys) : ConnEvent → Option Sys
  | .gaugeInc => some { s with gauge := s.gauge + 1 }
  | .gaugeDec => some { s with gauge := s.gauge - 1 }
  | .linesReadInc => some { s with linesRead := s.linesRead + 1 }
  | .send d =>
    if s.buffer.length < relayCapacity then some { s with buffer := s.buffer ++ [d] }
    else none
  | .errorLog msg => some { s with logs := s.logs ++ [msg] }
  | .close => some s

/-- Effect of one event of the writer task on the shared state. -/
def writerEffect (out : Nat → WriteResult) (s : Sys) : WriterEvent → Sys
  | .write d =>
    { s with calls := s.calls + 1, written := s.written ++ [d],
             stdout := s.stdout ++ bytesWritten (out s.calls) d }
  | .errorLog msg => { s with logs := s.logs ++ [msg] }
  | .linesWrittenInc => { s with linesWritten := s.linesWritten + 1 }
  | .sigpipe => { s with exited := true }

/-- One step of the chosen task of a live process; `none` when that task
cannot move (it has finished, it is blocked on a full channel, or it waits on
an empty one). -/
def stepLive (out : Nat → WriteResult) (s : Sys) : Task → Option Sys
  | .handler i =>
    match s.handlers[i]? with
    | some (e :: rest) =>
      match connEffect s e with
      | some s1 => some { s1 with handlers := s1.handlers.set i rest }
      | none => none
    | _ => none
  | .writer =>
    match s.writer with
    | e :: rest => some { writerEffect out s e with writer := rest }
    | [] =>
      match s.buffer with
      | d :: b => some { s with buffer := b, writer := writerIteration (out s.calls) d }
      | [] => none

/-- One step of the chosen task: no task moves once the process has exited. -/
def step (out : Nat → WriteResult) (s : Sys) (t : Task) : Option Sys :=
  if s.exited then none else stepLive out s t

/-- Runs a schedule: the tasks step one at a time in the order listed. -/
def run (out : Nat → WriteResult) : Sys → List Task → Option Sys
  | s, [] => some s
  | s, t :: ts =>
    match step out s t with
    | some s1 => run out s1 ts
    | none => none

/-- The pipeline at the start: the tasks have all their events ahead, the
channel is empty, the writer waits, nothing is written. -/
def initSys (progs : List (List ConnEvent)) : Sys :=
  { handlers := progs, buffer := [], writer := [], calls := 0, written := [],
    stdout := [], linesRead := 0, linesWritten := 0, gauge := 0, logs := [],
    exited := false }

/-- Nothing is left to do: every connection task has returned, the channel is
empty and the writer waits on it. -/
def Quiescent (s : Sys) : Prop :=
  (∀ h ∈ s.handlers, h = []) ∧ s.buffer = [] ∧ s.writer = []

instance (s : Sys) : Decidable (Quiescent s) := by
  unfold Quiescent; infer_instance

/-- An interleaving of several sequences: `IsShuffle ls out` holds when `out`
is obtained by repeatedly taking the head of one of the lists of `ls`. -/
inductive IsShuffle {α : Type} : List (List α) → List α → Prop where
  | done (ls : List (List α)) : (∀ l ∈ ls, l = []) → IsShuffle ls []
  | pick (ls : List (List α)) (i : Nat) (x : α) (rest out : List α) :
      ls[i]? = some (x :: rest) → IsShuffle (ls.set i rest) out → IsShuffle ls (x :: out)

/-- The Records that have left the connection tasks, in the order the writer
takes them: written, being written, buffered in the channel. -/
def inFlight (s : Sys) : List Record :=
  s.written ++ writeCalls s.writer ++ s.buffer

/-- The pipeline invariant: whatever interleaving the remaining sends take,
together with the Records already sent it is an interleaving of `R`. -/
def Inv (R : List (List Record)) (s : Sys) : Prop :=
  ∀ out, IsShuffle (s.handlers.map sends) out → IsShuffle R (inFlight s ++ out)

/-- The process is alive and the writer is not about to end it. -/
def Alive (s : Sys) : Prop :=
  s.exited = false ∧ WriterEvent.sigpipe ∉ s.writer

/-- Steps a schedule can still take from a state, at most. -/
def budget (s : Sys) : Nat :=
  6 * (s.handlers.map List.length).sum + 4 * s.buffer.length + s.writer.length

/-! ## Errors, the server and its options -/

/-- A Go `error` value. `wrap cause msg` is `errors.Wrap(cause, msg)`;
`serverClosed` is `http.ErrServerClosed`. -/
inductive Err where
  | base (text : String)
  | serverClosed
  | wrap (cause : Err) (msg : String)
  deriving DecidableEq, Repr

/-- The function `errors.Wrap(err, msg)`, which is nil when `err` is nil. -/
def Wrap : Option Err → String → Option Err
  | none, _ => none
  | some e, msg => some (.wrap e msg)

/-- The two kinds of primary listener. -/
inductive Network where
  | tcp
  | unix
  deriving DecidableEq, Repr

/-- A bound `net.Listener`. -/
structure Listener where
  network : Network
  addr : String
  closed : Bool
  deriving DecidableEq, Repr

/-- The struct `Server`. The channel `stopChan` carries `struct{}` values, so
its content is the number of values buffered in it; `listener` is nil until
`Run` has set it. -/
structure Server where
  tcpAddr : String
  unixAddr : String
  auxAddr : String
  stopChan : Nat
  listener : Option Listener
  deriving DecidableEq, Repr

/-- The type `OptionsFunc`: a function that sets an option on the server or fails. -/
abbrev OptionsFunc := Server → Except Err Server

/-- The option `SetTCPAddress(addr)`. -/
def SetTCPAddress (addr : String) : OptionsFunc :=
  fun s => .ok { s with tcpAddr := addr }

/-- The option `SetUnixAddress(addr)`. -/
def SetUnixAddress (addr : String) : OptionsFunc :=
  fun s => .ok { s with unixAddr := addr }

/-- The option `SetAuxAddress(addr)`. -/
def SetAuxAddress (addr : String) : OptionsFunc :=
  fun s => .ok { s with auxAddr := addr }

/-- The loop of `New` over the options. -/
def applyOptions : List OptionsFunc → Server → Except Err Server
  | [], s => .ok s
  | f :: fs, s =>
    match f s with
    | .error e => .error (.wrap e "options func failed")
    | .ok s1 => applyOptions fs s1

/-- The function `New(options...)`: the default aux address, an empty shutdown
channel of capacity 1, then the options in order. -/
def New (options : List OptionsFunc) : Except Err Server :=
  applyOptions options
    { tcpAddr := "", unixAddr := "", auxAddr := ":9090", stopChan := 0, listener := none }

/-- Outcome of a call of `Stop`. -/
inductive StopResult where
  | blocked
  | nilListener (s : Server)
  | done (s : Server)
  deriving DecidableEq, Repr

/-- The method `Stop`: the send `s.stopChan <- struct{}{}`, on which the caller
stays blocked when the channel is full, then `s.listener.Close()`, which is a
nil dereference when `Run` has not set the listener. -/
def Server.Stop (s : Server) : StopResult :=
  match chanSend stopCapacity s.stopChan with
  | none => .blocked
  | some n =>
    match s.listener with
    | none => .nilListener { s with stopChan := n }
    | some l => .done { s with stopChan := n, listener := some { l with closed := true } }

/-! ## The acceptor loop -/

/-- Outcome of one call `s.listener.Accept()`. -/
inductive AcceptResult where
  | conn (c : Conn)
  | failed (text : String)
  deriving DecidableEq, Repr

/-- Effects of the `copyData` task, in program order. -/
inductive AcceptorEvent where
  | goStdoutWriter
  | accept
  | errorLog (msg : String)
  | connectionCounterInc
  | goHandleConnection (c : Conn)
  deriving DecidableEq, Repr

/-- What the rest of the world does to the loop: `accept k` is the outcome of
accept call number `k`; `stopSent k` tells whether a call of `Stop` issues its
send on the shutdown channel between the previous check of that channel and
check number `k`. -/
structure AcceptEnv where
  accept : Nat → AcceptResult
  stopSent : Nat → Bool

/-- The send of a call of `Stop`, when one is issued: it lands in the buffer
of the shutdown channel when there is room, and on a full channel the caller
stays blocked in it until a receive makes room. -/
def deliverStop (sent : Bool) (c : Chan) : Chan :=
  if sent then chanArrive stopCapacity c else c

/-- The two `return nil` statements of `copyData`. -/
inductive ExitPoint where
  | top
  | afterFailedAccept
  deriving DecidableEq, Repr

/-- State of the loop: state of the shutdown channel, number of checks of it
made, number of accept calls made, events performed. -/
structure LoopState where
  stopChan : Chan
  checks : Nat
  accepts : Nat
  events : List AcceptorEvent
  deriving DecidableEq, Repr

/-- Where the loop stands after the iterations it was given fuel for. -/
inductive LoopResult where
  | running (st : LoopState)
  | returned (err : Option Err) (site : ExitPoint) (st : LoopState)
  deriving DecidableEq, Repr

/-- The `for` loop of `copyData`; each unit of fuel pays for one iteration. -/
def copyDataLoop (env : AcceptEnv) : Nat → LoopState → LoopResult
  | 0, st => .running st
  | fuel + 1, st =>
    match chanTryRecv (deliverStop (env.stopSent st.checks) st.stopChan) with
    | (true, ch) => .returned none .top { st with stopChan := ch, checks := st.checks + 1 }
    | (false, ch) =>
      match env.accept st.accepts with
      | .failed text =>
        match chanTryRecv (deliverStop (env.stopSent (st.checks + 1)) ch) with
        | (true, ch1) =>
          .returned none .afterFailedAccept
            { stopChan := ch1, checks := st.checks + 2, accepts := st.accepts + 1,
              events := st.events ++ [.accept] }
        | (false, ch1) =>
          copyDataLoop env fuel
            { stopChan := ch1, checks := st.checks + 2, accepts := st.accepts + 1,
              events := st.events ++ [.accept, .errorLog ("accept failed: " ++ text ++ "\n")] }
      | .conn c =>
        copyDataLoop env fuel
          { stopChan := ch, checks := st.checks + 1, accepts := st.accepts + 1,
            events := st.events ++ [.accept, .connectionCounterInc, .goHandleConnection c] }

/-- The method `copyData`: the relay channel is made, the writer task is
started, then the loop runs. -/
def Server.copyData (s : Server) (env : AcceptEnv) (fuel : Nat) : LoopResult :=
  copyDataLoop env fuel
    { stopChan := { buf := s.stopChan, blocked := 0 }, checks := 0, accepts := 0,
      events := [.goStdoutWriter] }

/-- Number of sends of `Stop` issued up to check number `n` of the shutdown
channel, that check excluded. -/
def arrivals (env : AcceptEnv) : Nat → Nat
  | 0 => 0
  | n + 1 => arrivals env n + (if env.stopSent n then 1 else 0)

/-- Number of failed calls among the first `n` accept calls. -/
def failedAccepts (env : AcceptEnv) : Nat → Nat
  | 0 => 0
  | n + 1 =>
    failedAccepts env n +
      (match env.accept n with
        | .failed _ => 1
        | .conn _ => 0)

/-- Number of accept calls among the events. -/
def acceptCalls : List AcceptorEvent → Nat
  | [] => 0
  | .accept :: evs => acceptCalls evs + 1
  | _ :: evs => acceptCalls evs

/-! ## Startup -/

/-- What the operating system answers during `Run`: the error of each listen
call and of the permission change (`none` for success), and what `g.Wait()`
returns once the tasks of the group have ended. -/
structure RunEnv where
  listenTCP : String → Option Err
  listenUnix : String → Option Err
  chmod : String → Nat → Option Err
  groupWait : Option Err

/-- Effects of `Run`, in program order. -/
inductive RunEvent where
  | unregisterCollectors
  | listen (network : Network) (addr : String)
  | setUnlinkOnClose (addr : String)
  | chmod (addr : String) (mode : Nat)
  | httpHandle (pattern : String)
  | signalNotify
  | goAuxServer (addr : String)
  | goCopyData
  | goSignalWatcher
  | groupWait
  deriving DecidableEq, Repr

/-- The function `tcpListener(addr)`. -/
def tcpListener (env : RunEnv) (addr : String) : List RunEvent × Except Err Listener :=
  match env.listenTCP addr with
  | some e => ([.listen .tcp addr], .error (.wrap e "tcp listen failed"))
  | none => ([.listen .tcp addr], .ok { network := .tcp, addr := addr, closed := false })

/-- The function `unixListener(addr)`. -/
def unixListener (env : RunEnv) (addr : String) : List RunEvent × Except Err Listener :=
  match env.listenUnix addr with
  | some e => ([.listen .unix addr], .error (.wrap e "unix listen failed"))
  | none =>
    match env.chmod addr 0o777 with
    | some e =>
      ([.listen .unix addr, .setUnlinkOnClose addr, .chmod addr 0o777],
        .error (.wrap e "failed to set pemissions on unix socket file"))
    | none =>
      ([.listen .unix addr, .setUnlinkOnClose addr, .chmod addr 0o777],
        .ok { network := .unix, addr := addr, closed := false })

/-- What a call of `Run` did: its events, the server as `Run` left its fields,
the error returned. -/
structure RunResult where
  events : List RunEvent
  server : Server
  err : Option Err
  deriving DecidableEq, Repr

/-- The events of `Run` once the listener is bound: handlers registered,
signals subscribed, the three tasks of the group started, the wait. -/
def serveEvents (s : Server) : List RunEvent :=
  [.httpHandle "/healthz", .httpHandle "/metrics", .signalNotify, .goAuxServer s.auxAddr,
   .goCopyData, .goSignalWatcher, .groupWait]

/-- The method `Run`. -/
def Server.Run (s : Server) (env : RunEnv) : RunResult :=
  if s.unixAddr ≠ "" then
    match unixListener env s.unixAddr with
    | (evs, .error e) =>
      { events := .unregisterCollectors :: evs, server := s,
        err := some (.wrap e "unix listen failed") }
    | (evs, .ok l) =>
      { events := .unregisterCollectors :: (evs ++ serveEvents s),
        server := { s with listener := some l },
        err := if env.groupWait = some .serverClosed then none
               else Wrap env.groupWait "failed to run server" }
  else
    match tcpListener env s.tcpAddr with
    | (evs, .error e) =>
      { events := .unregisterCollectors :: evs, server := s,
        err := some (.wrap e "tcp listen failed") }
    | (evs, .ok l) =>
      { events := .unregisterCollectors :: (evs ++ serveEvents s),
        server := { s with listener := some l },
        err := if env.groupWait = some .serverClosed then none
               else Wrap env.groupWait "failed to run server" }

/-- The listen calls among the events: network and address of each. -/
def listenCalls : List RunEvent → List (Network × String)
  | [] => []
  | .listen n a :: evs => (n, a) :: listenCalls evs
  | _ :: evs => listenCalls evs

/-- Whether the event starts serving: the signal subscription, the auxiliary
endpoint, the acceptor loop (which starts the writer), the signal watcher. -/
def startsServing : RunEvent → Bool
  | .signalNotify => true
  | .goAuxServer _ => true
  | .goCopyData => true
  | .goSignalWatcher => true
  | _ => false

/-! ## Sample inputs -/

/-- A connection that sends `hi\nx\ny` and closes. -/
def twoLines : Conn := { input := [104, 105, 10, 120, 10, 121], err := .eof }

/-- A connection that sends `partial` and closes. -/
def fragmentOnly : Conn := { input := [112, 97, 114, 116, 105, 97, 108], err := .eof }

/-- A connection that sends `hello\n` and closes. -/
def helloLine : Conn := { input := [104, 101, 108, 108, 111, 10], err := .eof }

/-- A connection that sends `a\nb` and closes: one delimiter, not at the end. -/
def lineThenFragment : Conn := { input := [97, 10, 98], err := .eof }

/-- A connection that sends `a\nb\n`, then fails with a read error. -/
def resetAfterTwo : Conn := { input := [97, 10, 98, 10], err := .other "connection reset" }

/-- A client that sends `a1\na2\n` and closes. -/
def clientA : Conn := { input := [97, 49, 10, 97, 50, 10], err := .eof }

/-- A client that sends `b1\nb2\n` and closes. -/
def clientB : Conn := { input := [98, 49, 10, 98, 50, 10], err := .eof }

/-- The server that `main.go` builds from the default flags. -/
def defaultServer : Server :=
  { tcpAddr := "127.0.0.1:4444", unixAddr := "", auxAddr := ":9090", stopChan := 0,
    listener := none }

/-- A server configured with both addresses. -/
def bothServer : Server :=
  { tcpAddr := "127.0.0.1:4444", unixAddr := "/tmp/relay.sock", auxAddr := ":9090",
    stopChan := 0, listener := none }

/-- Every system call of `Run` succeeds and the group ends on `ErrServerClosed`. -/
def okEnv : RunEnv :=
  { listenTCP := fun _ => none, listenUnix := fun _ => none, chmod := fun _ _ => none,
    groupWait := some .serverClosed }

/-- The Unix socket is bound but its permissions cannot be changed. -/
def chmodFails : RunEnv :=
  { listenTCP := fun _ => none, listenUnix := fun _ => none,
    chmod := fun _ _ => some (.base "operation not permitted"),
    groupWait := some .serverClosed }

/-- Every accept call fails and `Stop` is never called. -/
def acceptFailsForever : AcceptEnv :=
  { accept := fun _ => .failed "too many open files", stopSent := fun _ => false }

/-- Every accept call fails; `Stop` is called during the third accept call
(its send is pending at check number 5). -/
def stopDuringThirdAccept : AcceptEnv :=
  { accept := fun _ => .failed "use of closed network connection",
    stopSent := fun k => decide (k = 5) }

/-- A schedule for `clientA` (task 0), `clientB` (task 1) and the writer in
which the writer takes the Records in the order `a1`, `b1`, `b2`, `a2`. -/
def twoClientSchedule : List Task :=
  [.handler 0, .handler 1, .handler 0, .handler 0, .handler 1, .writer, .handler 1,
   .writer, .writer, .writer, .handler 1, .handler 1, .writer, .writer, .writer,
   .writer, .writer, .handler 0, .handler 0, .writer, .writer, .writer,
   .handler 0, .handler 0, .handler 1, .handler 1]

/-- A schedule for one client that sends one Record: the task runs up to its
send, the writer writes the Record, the task closes the connection. -/
def oneLineSchedule : List Task :=
  [.handler 0, .handler 0, .handler 0, .writer, .writer, .writer, .handler 0, .handler 0]

/-- The default server once `Run` has bound its listener. -/
def servingServer : Server :=
  { tcpAddr := "127.0.0.1:4444", unixAddr := "", auxAddr := ":9090", stopChan := 0,
    listener := some { network := .tcp, addr := "127.0.0.1:4444", closed := false } }

/-- The serving server after one call of `Stop`: the signal is in the channel
and the listener is closed. -/
def stoppedOnce : Server :=
  { tcpAddr := "127.0.0.1:4444", unixAddr := "", auxAddr := ":9090", stopChan := 1,
    listener := some { network := .tcp, addr := "127.0.0.1:4444", closed := true } }

/-- Every accept call fails; a call of `Stop` issues its send before the first
check of the loop. -/
def stopBeforeFirstCheck : AcceptEnv :=
  { accept := fun _ => .failed "use of closed network connection",
    stopSent := fun k => decide (k = 0) }

/-- Every accept call fails; `Stop` is called during the first accept call
(its send is issued before check number 1). -/
def stopDuringFirstAccept : AcceptEnv :=
  { accept := fun _ => .failed "use of closed network connection",
    stopSent := fun k => decide (k = 1) }

/-- Every write call succeeds. -/
def allOk : Nat → WriteResult := fun _ => .ok

/-- The second write call returns an error after two bytes, the others succeed. -/
def secondFails : Nat → WriteResult :=
  fun k => if k = 1 then .failed 2 "no space left on device" else .ok

/-- The second write call hits a broken pipe on standard output, so SIGPIPE
ends the process there. -/
def secondKills : Nat → WriteResult :=
  fun k => if k = 1 then .sigpipe 0 else .ok

/-- Three Records: `a\n`, `b\n`, `c\n`. -/
def threeRecords : List Record := [[97, 10], [98, 10], [99, 10]]

/-! ## Lemmas on the line reader -/

theorem readSlice_some {d : Byte} :
    ∀ {s line rest : List Byte}, readSlice d s = some (line, rest) →
      (∃ body, line = body ++ [d] ∧ d ∉ body) ∧ s = line ++ rest := by
  intro s
  induction s with
  | nil => intro line rest h; simp [readSlice] at h
  | cons b bs ih =>
    intro line rest h
    unfold readSlice at h
    split at h
    · rename_i hb
      simp only [Option.some.injEq, Prod.mk.injEq] at h
      obtain ⟨h1, h2⟩ := h
      subst h1 h2 hb
      exact ⟨⟨[], by simp⟩, by simp⟩
    · rename_i hb
      split at h
      · simp at h
      · rename_i line1 rest1 hrec
        simp only [Option.some.injEq, Prod.mk.injEq] at h
        obtain ⟨h1, h2⟩ := h
        subst h1 h2
        obtain ⟨⟨body, hbody, hnot⟩, hs⟩ := ih hrec
        refine ⟨⟨b :: body, by simp [hbody], ?_⟩, by simp [hs]⟩
        simp only [List.mem_cons, not_or]
        exact ⟨fun h => hb h.symm, hnot⟩

theorem readSlice_none {d : Byte} :
    ∀ {s : List Byte}, readSlice d s = none → d ∉ s := by
  intro s
  induction s with
  | nil => intro _; simp
  | cons b bs ih =>
    intro h
    unfold readSlice at h
    split at h
    · simp at h
    · rename_i hb
      split at h
      · rename_i hrec
        simp only [List.mem_cons, not_or]
        exact ⟨fun h => hb h.symm, ih hrec⟩
      · simp at h

theorem sends_forwardEvents (rs : List Record) (tl : List ConnEvent) :
    sends (forwardEvents rs ++ tl) = rs ++ sends tl := by
  induction rs with
  | nil => simp [forwardEvents]
  | cons r rs ih => simp [forwardEvents, sends, ih]

theorem linesReadIncs_forwardEvents (rs : List Record) (tl : List ConnEvent) :
    linesReadIncs (forwardEvents rs ++ tl) = rs.length + linesReadIncs tl := by
  induction rs with
  | nil => simp [forwardEvents]
  | cons r rs ih => simp [forwardEvents, linesReadIncs, ih]; omega

theorem sends_onReadError (e : ReadError) : sends (onReadError e) = [] := by
  cases e <;> simp [onReadError, sends]

theorem linesReadIncs_onReadError (e : ReadError) : linesReadIncs (onReadError e) = 0 := by
  cases e <;> simp [onReadError, linesReadIncs]

/-- With more fuel than bytes the loop returns, and its events are: for each
line of the stream in order one increment and one send, then the events of the
read error. The lines tile the stream up to a delimiter-free remainder. -/
theorem handleConnectionLoop_events :
    ∀ (fuel : Nat) (c : Conn), c.input.length < fuel →
      ∃ (recs : List Record) (tail : List Byte),
        handleConnectionLoop fuel c = some (forwardEvents recs ++ onReadError c.err) ∧
        (∀ r ∈ recs, IsLine r) ∧ nl ∉ tail ∧ c.input = recs.flatten ++ tail := by
  intro fuel
  induction fuel with
  | zero => intro c h; omega
  | succ n ih =>
    intro c hlen
    cases hrs : readSlice nl c.input with
    | none =>
      refine ⟨[], c.input, ?_, by simp, readSlice_none hrs, by simp⟩
      simp [handleConnectionLoop, ReadBytes, hrs, forwardEvents]
    | some p =>
      obtain ⟨line, rest⟩ := p
      obtain ⟨⟨body, hbody, hnot⟩, hs⟩ := readSlice_some hrs
      have hlt : rest.length < n := by
        have : c.input.length = line.length + rest.length := by rw [hs]; simp
        have : line.length = body.length + 1 := by rw [hbody]; simp
        omega
      obtain ⟨recs, tail, hrun, hlines, htail, hcat⟩ := ih { c with input := rest } hlt
      refine ⟨line :: recs, tail, ?_, ?_, htail, ?_⟩
      · simp only [handleConnectionLoop, ReadBytes, hrs]
        simp only [] at hrun
        rw [hrun]
        simp [forwardEvents]
      · intro r hr
        rcases List.mem_cons.mp hr with h | h
        · exact h ▸ ⟨body, hbody, hnot⟩
        · exact hlines r h
      · simp only [] at hcat
        rw [hs, hcat]
        simp

theorem count_nl_line {r : Record} (h : IsLine r) : r.count nl = 1 := by
  obtain ⟨body, rfl, hnot⟩ := h
  simp [List.count_append, List.count_eq_zero_of_not_mem hnot]

theorem count_nl_lines {recs : List Record} (h : ∀ r ∈ recs, IsLine r)
    {tail : List Byte} (ht : nl ∉ tail) :
    (recs.flatten ++ tail).count nl = recs.length := by
  induction recs with
  | nil => simp [List.count_eq_zero_of_not_mem ht]
  | cons r rs ih =>
    have h1 := count_nl_line (h r (List.mem_cons_self _ _))
    have h2 := ih (fun x hx => h x (List.mem_cons_of_mem _ hx))
    simp only [List.flatten_cons, List.append_assoc, List.count_append, List.length_cons] at h2 ⊢
    omega

/-! ## Lemmas on interleavings -/

theorem sum_length_set {α : Type} :
    ∀ (ls : List (List α)) (i : Nat) (x : α) (rest : List α), ls[i]? = some (x :: rest) →
      (ls.map List.length).sum = ((ls.set i rest).map List.length).sum + 1 := by
  intro ls
  induction ls with
  | nil => intro i x rest h; simp at h
  | cons l ls ih =>
    intro i x rest h
    cases i with
    | zero =>
      simp only [List.getElem?_cons_zero, Option.some.injEq] at h
      subst h
      simp only [List.set_cons_zero, List.map_cons, List.sum_cons, List.length_cons]
      omega
    | succ j =>
      simp only [List.getElem?_cons_succ] at h
      have := ih j x rest h
      simp only [List.set_cons_succ, List.map_cons, List.sum_cons]
      omega

theorem IsShuffle.length_eq {α : Type} {ls : List (List α)} {out : List α}
    (h : IsShuffle ls out) : out.length = (ls.map List.length).sum := by
  induction h with
  | done ls hall =>
    induction ls with
    | nil => simp
    | cons l ls ih =>
      have h1 : l = [] := hall l (List.mem_cons_self _ _)
      have h2 := ih (fun x hx => hall x (List.mem_cons_of_mem _ hx))
      simp only [List.length_nil] at h2
      simp [h1, ← h2]
  | pick ls i x rest out hi _ ih =>
    have := sum_length_set ls i x rest hi
    simp only [List.length_cons]
    omega

theorem IsShuffle.sublist {α : Type} {ls : List (List α)} {out : List α}
    (h : IsShuffle ls out) : ∀ (j : Nat) (l : List α), ls[j]? = some l → l.Sublist out := by
  induction h with
  | done ls hall =>
    intro j l hj
    have : l = [] := hall l (List.mem_iff_getElem?.mpr ⟨j, hj⟩)
    simp [this]
  | pick ls i x rest out hi _ ih =>
    intro j l hj
    by_cases hij : i = j
    · subst hij
      rw [hi] at hj
      simp only [Option.some.injEq] at hj
      subst hj
      have hlt : i < ls.length := by
        by_contra hge
        rw [List.getElem?_eq_none (by omega)] at hi
        simp at hi
      exact (ih i rest (List.getElem?_set_self hlt)).cons₂ x
    · have : (ls.set i rest)[j]? = some l := by rw [List.getElem?_set_ne hij]; exact hj
      exact (ih j l this).cons x

theorem IsShuffle.mem {α : Type} {ls : List (List α)} {out : List α}
    (h : IsShuffle ls out) : ∀ x ∈ out, ∃ l ∈ ls, x ∈ l := by
  induction h with
  | done ls hall => intro x hx; simp at hx
  | pick ls i y rest out hi _ ih =>
    intro x hx
    have hmem : (y :: rest) ∈ ls := List.mem_iff_getElem?.mpr ⟨i, hi⟩
    rcases List.mem_cons.mp hx with h | h
    · exact ⟨y :: rest, hmem, by simp [h]⟩
    · obtain ⟨l, hl, hxl⟩ := ih x h
      rcases List.mem_or_eq_of_mem_set hl with h1 | h1
      · exact ⟨l, h1, hxl⟩
      · exact ⟨y :: rest, hmem, by rw [h1] at hxl; exact List.mem_cons_of_mem _ hxl⟩

theorem sum_replicate_of_forall {ls : List Nat} {m : Nat} (h : ∀ n ∈ ls, n = m) :
    ls.sum = ls.length * m := by
  induction ls with
  | nil => simp
  | cons a as ih =>
    have h1 := h a (List.mem_cons_self _ _)
    have h2 := ih (fun n hn => h n (List.mem_cons_of_mem _ hn))
    simp only [List.sum_cons, List.length_cons, h1, h2]
    ring

/-! ## Lemmas on the pipeline -/

theorem writeCalls_writerIteration (res : WriteResult) (d : Record) :
    writeCalls (writerIteration res d) = [d] := by
  cases res <;> simp [writerIteration, writeCalls]

theorem length_writerIteration_le (res : WriteResult) (d : Record) :
    (writerIteration res d).length ≤ 3 := by
  cases res <;> simp [writerIteration]

theorem stepLive_of_step {out : Nat → WriteResult} {s s1 : Sys} {t : Task}
    (h : step out s t = some s1) : s.exited = false ∧ stepLive out s t = some s1 := by
  unfold step at h
  split at h
  · simp at h
  · rename_i hx
    exact ⟨by simpa using hx, h⟩

theorem set_map_sends_same {hs : List (List ConnEvent)} {i : Nat} {e : ConnEvent}
    {rest : List ConnEvent} (hi : hs[i]? = some (e :: rest))
    (he : sends (e :: rest) = sends rest) :
    (hs.set i rest).map sends = hs.map sends := by
  rw [List.map_set]
  apply List.ext_getElem?
  intro j
  by_cases hij : i = j
  · subst hij
    have hlt : i < hs.length := by
      by_contra hge
      rw [List.getElem?_eq_none (by omega)] at hi
      simp at hi
    rw [List.getElem?_set_self (by simpa using hlt), List.getElem?_map, hi]
    simp [he]
  · rw [List.getElem?_set_ne hij]

theorem step_inv {out : Nat → WriteResult} {R : List (List Record)} {s s1 : Sys} {t : Task}
    (hstep : step out s t = some s1) (hinv : Inv R s) : Inv R s1 := by
  replace hstep := (stepLive_of_step hstep).2
  cases t with
  | handler i =>
    simp only [stepLive] at hstep
    split at hstep
    · rename_i e rest hi
      split at hstep
      · rename_i s2 heff
        simp only [Option.some.injEq] at hstep
        subst hstep
        cases e with
        | send d =>
          simp only [connEffect] at heff
          split at heff
          · simp only [Option.some.injEq] at heff
            subst heff
            intro o ho
            simp only [inFlight, List.map_set] at ho ⊢
            have hpick : IsShuffle (s.handlers.map sends) (d :: o) := by
              refine IsShuffle.pick _ i d (sends rest) o ?_ ho
              rw [List.getElem?_map, hi]
              simp [sends]
            have := hinv (d :: o) hpick
            simpa [inFlight] using this
          · simp at heff
        | gaugeInc | gaugeDec | linesReadInc | errorLog _ | close =>
          simp only [connEffect, Option.some.injEq] at heff
          subst heff
          intro o ho
          simp only [inFlight] at ho ⊢
          rw [set_map_sends_same hi (by simp [sends])] at ho
          exact hinv o ho
      · simp at hstep
    · simp at hstep
  | writer =>
    simp only [stepLive] at hstep
    split at hstep
    · rename_i e rest hw
      simp only [Option.some.injEq] at hstep
      subst hstep
      intro o ho
      have := hinv o (by cases e <;> simpa [writerEffect] using ho)
      cases e <;> simpa [inFlight, writerEffect, hw, writeCalls] using this
    · rename_i hw
      split at hstep
      · rename_i d b hb
        simp only [Option.some.injEq] at hstep
        subst hstep
        intro o ho
        have := hinv o ho
        simpa [inFlight, hw, hb, writeCalls, writeCalls_writerIteration] using this
      · simp at hstep

theorem run_inv {out : Nat → WriteResult} {R : List (List Record)} :
    ∀ (sched : List Task) {s s1 : Sys}, run out s sched = some s1 → Inv R s → Inv R s1 := by
  intro sched
  induction sched with
  | nil =>
    intro s s1 h hinv
    simp only [run, Option.some.injEq] at h
    exact h ▸ hinv
  | cons t ts ih =>
    intro s s1 h hinv
    simp only [run] at h
    split at h
    · rename_i s2 hs
      exact ih h (step_inv hs hinv)
    · simp at h

theorem inv_init (progs : List (List ConnEvent)) : Inv (progs.map sends) (initSys progs) := by
  intro o ho
  simpa [inFlight, initSys, writeCalls] using ho

theorem inv_quiescent {R : List (List Record)} {s : Sys} (hinv : Inv R s) (hq : Quiescent s) :
    IsShuffle R s.written := by
  obtain ⟨hh, hb, hw⟩ := hq
  have hdone : IsShuffle (s.handlers.map sends) [] := by
    apply IsShuffle.done
    intro l hl
    obtain ⟨h, hmem, rfl⟩ := List.mem_map.mp hl
    rw [hh h hmem]
    rfl
  have := hinv [] hdone
  simpa [inFlight, hb, hw, writeCalls] using this

theorem step_stdout {out : Nat → WriteResult} (hok : ∀ k, out k = .ok) {s s1 : Sys} {t : Task}
    (hstep : step out s t = some s1) (h : s.stdout = s.written.flatten) :
    s1.stdout = s1.written.flatten := by
  replace hstep := (stepLive_of_step hstep).2
  cases t with
  | handler i =>
    simp only [stepLive] at hstep
    split at hstep
    · rename_i e rest hi
      split at hstep
      · rename_i s2 heff
        simp only [Option.some.injEq] at hstep
        subst hstep
        cases e <;> simp only [connEffect] at heff
        case send d =>
          split at heff
          · simp only [Option.some.injEq] at heff
            subst heff
            exact h
          · simp at heff
        all_goals
          simp only [Option.some.injEq] at heff
          subst heff
          exact h
      · simp at hstep
    · simp at hstep
  | writer =>
    simp only [stepLive] at hstep
    split at hstep
    · rename_i e rest hw
      simp only [Option.some.injEq] at hstep
      subst hstep
      cases e <;> simp [writerEffect, h, hok, bytesWritten]
    · split at hstep
      · simp only [Option.some.injEq] at hstep
        subst hstep
        exact h
      · simp at hstep

theorem run_stdout {out : Nat → WriteResult} (hok : ∀ k, out k = .ok) :
    ∀ (sched : List Task) {s s1 : Sys}, run out s sched = some s1 →
      s.stdout = s.written.flatten → s1.stdout = s1.written.flatten := by
  intro sched
  induction sched with
  | nil =>
    intro s s1 h hs
    simp only [run, Option.some.injEq] at h
    exact h ▸ hs
  | cons t ts ih =>
    intro s s1 h hs
    simp only [run] at h
    split at h
    · rename_i s2 hstep
      exact ih h (step_stdout hok hstep hs)
    · simp at h

theorem step_budget {out : Nat → WriteResult} {s s1 : Sys} {t : Task}
    (hstep : step out s t = some s1) : budget s1 < budget s := by
  replace hstep := (stepLive_of_step hstep).2
  cases t with
  | handler i =>
    simp only [stepLive] at hstep
    split at hstep
    · rename_i e rest hi
      have hsum := sum_length_set s.handlers i e rest hi
      split at hstep
      · rename_i s2 heff
        simp only [Option.some.injEq] at hstep
        subst hstep
        cases e <;> simp only [connEffect] at heff
        case send d =>
          split at heff
          · simp only [Option.some.injEq] at heff
            subst heff
            simp only [budget, List.length_append, List.length_singleton]
            omega
          · simp at heff
        all_goals
          simp only [Option.some.injEq] at heff
          subst heff
          simp only [budget]
          omega
      · simp at hstep
    · simp at hstep
  | writer =>
    simp only [stepLive] at hstep
    split at hstep
    · rename_i e rest hw
      simp only [Option.some.injEq] at hstep
      subst hstep
      cases e <;> simp [budget, writerEffect, hw]
    · rename_i hw
      split at hstep
      · rename_i d b hb
        simp only [Option.some.injEq] at hstep
        subst hstep
        have := length_writerIteration_le (out s.calls) d
        simp only [budget, hw, hb, List.length_cons, List.length_nil]
        omega
      · simp at hstep

theorem run_budget {out : Nat → WriteResult} :
    ∀ (sched : List Task) {s s1 : Sys}, run out s sched = some s1 →
      sched.length + budget s1 ≤ budget s := by
  intro sched
  induction sched with
  | nil =>
    intro s s1 h
    simp only [run, Option.some.injEq] at h
    simp [h]
  | cons t ts ih =>
    intro s s1 h
    simp only [run] at h
    split at h
    · rename_i s2 hstep
      have h1 := ih h
      have h2 := step_budget hstep
      simp only [List.length_cons]
      omega
    · simp at h

/-- A live state that is not quiescent has a task that can step: no connection
task stays blocked on the channel, because the writer empties it. -/
theorem step_of_not_quiescent (out : Nat → WriteResult) {s : Sys} (hx : s.exited = false)
    (h : ¬ Quiescent s) : ∃ t s1, step out s t = some s1 := by
  cases hw : s.writer with
  | cons e rest => exact ⟨.writer, by simp [step, hx, stepLive, hw]⟩
  | nil =>
    cases hb : s.buffer with
    | cons d b => exact ⟨.writer, by simp [step, hx, stepLive, hw, hb]⟩
    | nil =>
      have hex : ∃ l ∈ s.handlers, l ≠ [] := by
        by_contra hcon
        push_neg at hcon
        exact h ⟨hcon, hb, hw⟩
      obtain ⟨l, hl, hne⟩ := hex
      obtain ⟨i, hi⟩ := List.mem_iff_getElem?.mp hl
      cases l with
      | nil => exact absurd rfl hne
      | cons e rest =>
        refine ⟨.handler i, ?_⟩
        cases e <;> simp [step, hx, stepLive, hi, connEffect, hb, relayCapacity]

theorem no_step_of_quiescent (out : Nat → WriteResult) {s : Sys} (h : Quiescent s) (t : Task) :
    step out s t = none := by
  obtain ⟨hh, hb, hw⟩ := h
  unfold step
  split
  · rfl
  · cases t with
    | writer => simp [stepLive, hw, hb]
    | handler i =>
      simp only [stepLive]
      split
      · rename_i e rest hi
        have := hh _ (List.mem_iff_getElem?.mpr ⟨i, hi⟩)
        simp at this
      · rfl

/-- When every write succeeds the process stays alive. -/
theorem step_alive {out : Nat → WriteResult} (hok : ∀ k, out k = .ok) {s s1 : Sys} {t : Task}
    (hstep : step out s t = some s1) (h : Alive s) : Alive s1 := by
  obtain ⟨hx, hstep⟩ := stepLive_of_step hstep
  obtain ⟨_, hw⟩ := h
  cases t with
  | handler i =>
    simp only [stepLive] at hstep
    split at hstep
    · rename_i e rest hi
      split at hstep
      · rename_i s2 heff
        simp only [Option.some.injEq] at hstep
        subst hstep
        cases e <;> simp only [connEffect] at heff
        case send d =>
          split at heff
          · simp only [Option.some.injEq] at heff
            subst heff
            exact ⟨hx, hw⟩
          · simp at heff
        all_goals
          simp only [Option.some.injEq] at heff
          subst heff
          exact ⟨hx, hw⟩
      · simp at hstep
    · simp at hstep
  | writer =>
    simp only [stepLive] at hstep
    split at hstep
    · rename_i e rest he
      simp only [Option.some.injEq] at hstep
      subst hstep
      rw [he] at hw
      have hrest : WriterEvent.sigpipe ∉ rest := fun hm => hw (List.mem_cons_of_mem _ hm)
      cases e with
      | sigpipe => exact absurd (List.mem_cons_self _ _) hw
      | write d => exact ⟨hx, hrest⟩
      | errorLog msg => exact ⟨hx, hrest⟩
      | linesWrittenInc => exact ⟨hx, hrest⟩
    · split at hstep
      · simp only [Option.some.injEq] at hstep
        subst hstep
        exact ⟨hx, by simp [hok, writerIteration]⟩
      · simp at hstep

theorem run_alive {out : Nat → WriteResult} (hok : ∀ k, out k = .ok) :
    ∀ (sched : List Task) {s s1 : Sys}, run out s sched = some s1 → Alive s → Alive s1 := by
  intro sched
  induction sched with
  | nil =>
    intro s s1 h hs
    simp only [run, Option.some.injEq] at h
    exact h ▸ hs
  | cons t ts ih =>
    intro s s1 h hs
    simp only [run] at h
    split at h
    · rename_i s2 hstep
      exact ih h (step_alive hok hstep hs)
    · simp at h

theorem alive_init (progs : List (List ConnEvent)) : Alive (initSys progs) := by
  simp [Alive, initSys]

/-- With the fuel `connTask` supplies the loop of `handleConnection` returns. -/
theorem handleConnection_connTask (c : Conn) :
    handleConnection (c.input.length + 1) c = some (connTask c) := by
  obtain ⟨recs, tail, hrun, _⟩ := handleConnectionLoop_events (c.input.length + 1) c (by omega)
  simp [connTask, handleConnection, hrun]

/-- The events of a connection task and the Records it sends. -/
theorem connTask_events (c : Conn) :
    ∃ (recs : List Record) (tail : List Byte),
      connTask c = .gaugeInc :: (forwardEvents recs ++ onReadError c.err ++ [.gaugeDec]) ∧
      sends (connTask c) = recs ∧
      (∀ r ∈ recs, IsLine r) ∧ nl ∉ tail ∧ c.input = recs.flatten ++ tail := by
  obtain ⟨recs, tail, hrun, hl, ht, hc⟩ :=
    handleConnectionLoop_events (c.input.length + 1) c (by omega)
  refine ⟨recs, tail, by simp [connTask, handleConnection, hrun], ?_, hl, ht, hc⟩
  simp only [connTask, handleConnection, hrun, Option.getD_some, sends]
  rw [List.append_assoc, sends_forwardEvents]
  cases c.err <;> simp [onReadError, sends]

theorem sends_connTask_length (c : Conn) : (sends (connTask c)).length = c.input.count nl := by
  obtain ⟨recs, tail, _, hs, hl, ht, hc⟩ := connTask_events c
  rw [hs, hc, count_nl_lines hl ht]

theorem sends_connTask_lines (c : Conn) : ∀ r ∈ sends (connTask c), IsLine r := by
  obtain ⟨recs, tail, _, hs, hl, _, _⟩ := connTask_events c
  rw [hs]
  exact hl

/-- When every write succeeds, every live state can be run to a quiescent one:
the pipeline drains. -/
theorem exists_quiescent_run (out : Nat → WriteResult) (hok : ∀ k, out k = .ok) :
    ∀ (n : Nat) (s : Sys), Alive s → budget s ≤ n →
      ∃ sched s1, run out s sched = some s1 ∧ Quiescent s1 := by
  intro n
  induction n with
  | zero =>
    intro s ha hs
    by_cases hq : Quiescent s
    · exact ⟨[], s, rfl, hq⟩
    · obtain ⟨t, s1, hstep⟩ := step_of_not_quiescent out ha.1 hq
      have := step_budget hstep
      omega
  | succ n ih =>
    intro s ha hs
    by_cases hq : Quiescent s
    · exact ⟨[], s, rfl, hq⟩
    · obtain ⟨t, s1, hstep⟩ := step_of_not_quiescent out ha.1 hq
      have hlt := step_budget hstep
      obtain ⟨sched, s2, hrun, hq2⟩ := ih s1 (step_alive hok hstep ha) (by omega)
      exact ⟨t :: sched, s2, by simp [run, hstep, hrun], hq2⟩

theorem isShuffle_singleton {α : Type} {ls : List (List α)} {out : List α}
    (h : IsShuffle ls out) : ∀ l, ls = [l] → out = l := by
  induction h with
  | done ls hall =>
    intro l hl
    subst hl
    exact (hall l (List.mem_singleton_self l)).symm
  | pick ls i x rest out hi _ ih =>
    intro l hl
    subst hl
    cases i with
    | zero =>
      simp only [List.getElem?_cons_zero, Option.some.injEq] at hi
      subst hi
      rw [ih rest (by simp)]
    | succ j => simp at hi

/-- Every list of sequences has an interleaving: their concatenation. -/
theorem isShuffle_flatten {α : Type} : ∀ ls : List (List α), IsShuffle ls ls.flatten := by
  have shift : ∀ (ls : List (List α)) (out : List α), IsShuffle ls out →
      IsShuffle ([] :: ls) out := by
    intro ls out h
    induction h with
    | done ls hall =>
      apply IsShuffle.done
      intro l hl
      rcases List.mem_cons.mp hl with h | h
      · exact h
      · exact hall l h
    | pick ls i x rest out hi _ ih =>
      exact IsShuffle.pick _ (i + 1) x rest out (by simpa using hi) (by simpa using ih)
  have front : ∀ (l : List α) (ls : List (List α)) (out : List α), IsShuffle ls out →
      IsShuffle (l :: ls) (l ++ out) := by
    intro l
    induction l with
    | nil => intro ls out h; simpa using shift ls out h
    | cons x xs ih =>
      intro ls out h
      exact IsShuffle.pick _ 0 x xs (xs ++ out) (by simp) (by simpa using ih ls out h)
  intro ls
  induction ls with
  | nil => exact IsShuffle.done [] (by simp)
  | cons l ls ih => simpa using front l ls _ ih

/-! ## Lemmas on the writer -/

theorem writeCalls_append (a b : List WriterEvent) :
    writeCalls (a ++ b) = writeCalls a ++ writeCalls b := by
  induction a with
  | nil => rfl
  | cons e es ih => cases e <;> simp [writeCalls, ih]

theorem linesWrittenIncs_append (a b : List WriterEvent) :
    linesWrittenIncs (a ++ b) = linesWrittenIncs a + linesWrittenIncs b := by
  induction a with
  | nil => simp [linesWrittenIncs]
  | cons e es ih => cases e <;> simp [linesWrittenIncs, ih]; omega

theorem writerLogs_append (a b : List WriterEvent) :
    writerLogs (a ++ b) = writerLogs a + writerLogs b := by
  induction a with
  | nil => simp [writerLogs]
  | cons e es ih => cases e <;> simp [writerLogs, ih]; omega

theorem linesWrittenIncs_writerIteration (res : WriteResult) (d : Record) :
    linesWrittenIncs (writerIteration res d) = if res.returns then 1 else 0 := by
  cases res <;> simp [writerIteration, linesWrittenIncs, WriteResult.returns]

theorem writerLogs_writerIteration (res : WriteResult) (d : Record) :
    writerLogs (writerIteration res d) =
      match res with
      | .failed _ _ => 1
      | _ => 0 := by
  cases res <;> simp [writerIteration, writerLogs]

theorem allReturn_succ {out : Nat → WriteResult} {k n : Nat} (h : AllReturn out k (n + 1)) :
    (out k).returns = true ∧ AllReturn out (k + 1) n := by
  refine ⟨by simpa using h 0 (by omega), ?_⟩
  intro j hj
  have := h (j + 1) (by omega)
  rwa [show k + (j + 1) = k + 1 + j by omega] at this

theorem stdoutWriter_append (out : Nat → WriteResult) :
    ∀ (pre suf : List Record) (k : Nat), AllReturn out k pre.length →
      stdoutWriter out k (pre ++ suf) =
        stdoutWriter out k pre ++ stdoutWriter out (k + pre.length) suf := by
  intro pre
  induction pre with
  | nil => intro suf k _; simp [stdoutWriter]
  | cons d ds ih =>
    intro suf k h
    obtain ⟨h0, h1⟩ := allReturn_succ h
    have hk : k + (ds.length + 1) = k + 1 + ds.length := by omega
    rw [List.cons_append]
    simp only [stdoutWriter, h0, if_true, ih suf (k + 1) h1, List.length_cons,
      List.append_assoc, hk]

theorem writeCalls_stdoutWriter (out : Nat → WriteResult) :
    ∀ (recs : List Record) (k : Nat), AllReturn out k recs.length →
      writeCalls (stdoutWriter out k recs) = recs := by
  intro recs
  induction recs with
  | nil => intro k _; rfl
  | cons d ds ih =>
    intro k h
    obtain ⟨h0, h1⟩ := allReturn_succ h
    simp [stdoutWriter, writeCalls_append, writeCalls_writerIteration, h0, ih (k + 1) h1]

/-- Whatever the outcomes, the write calls made are the first Records
received, one call each, in the order received. -/
theorem writeCalls_stdoutWriter_initial (out : Nat → WriteResult) :
    ∀ (recs : List Record) (k : Nat),
      ∃ rest, recs = writeCalls (stdoutWriter out k recs) ++ rest := by
  intro recs
  induction recs with
  | nil => intro k; exact ⟨[], rfl⟩
  | cons d ds ih =>
    intro k
    obtain ⟨rest, hrest⟩ := ih (k + 1)
    by_cases h0 : (out k).returns = true
    · refine ⟨rest, ?_⟩
      simp only [stdoutWriter, writeCalls_append, writeCalls_writerIteration, h0, if_true,
        List.singleton_append, List.cons_append, List.cons.injEq, true_and]
      exact hrest
    · refine ⟨ds, ?_⟩
      simp [stdoutWriter, writeCalls_append, writeCalls_writerIteration, h0, writeCalls]

theorem linesWrittenIncs_stdoutWriter (out : Nat → WriteResult) :
    ∀ (recs : List Record) (k : Nat), AllReturn out k recs.length →
      linesWrittenIncs (stdoutWriter out k recs) = recs.length := by
  intro recs
  induction recs with
  | nil => intro k _; rfl
  | cons d ds ih =>
    intro k h
    obtain ⟨h0, h1⟩ := allReturn_succ h
    simp only [stdoutWriter, linesWrittenIncs_append, linesWrittenIncs_writerIteration, h0,
      if_true, ih (k + 1) h1, List.length_cons]
    omega

theorem writerLogs_stdoutWriter (out : Nat → WriteResult) :
    ∀ (recs : List Record) (k : Nat), AllReturn out k recs.length →
      writerLogs (stdoutWriter out k recs) = failures out k recs.length := by
  intro recs
  induction recs with
  | nil => intro k _; rfl
  | cons d ds ih =>
    intro k h
    obtain ⟨h0, h1⟩ := allReturn_succ h
    simp only [stdoutWriter, writerLogs_append, writerLogs_writerIteration, h0, if_true,
      ih (k + 1) h1, List.length_cons, failures]

/-- A write that ends the process is the last event of the writer: the
Records before it have had their iterations, the Record itself has its write
call only, and the Records after it get nothing. -/
theorem stdoutWriter_sigpipe (out : Nat → WriteResult) (pre suf : List Record) (d : Record)
    (k : Nat) (hpre : AllReturn out k pre.length)
    (hd : (out (k + pre.length)).returns = false) :
    stdoutWriter out k (pre ++ d :: suf) =
      stdoutWriter out k pre ++ [.write d, .sigpipe] := by
  rw [stdoutWriter_append out pre (d :: suf) k hpre]
  cases hres : out (k + pre.length) with
  | ok => simp [hres, WriteResult.returns] at hd
  | failed n text => simp [hres, WriteResult.returns] at hd
  | sigpipe n => simp [stdoutWriter, hres, writerIteration, WriteResult.returns]

theorem cons_eq_append_cases {α : Type} {e : α} {evs pre suf : List α}
    (h : e :: evs = pre ++ suf) :
    pre = [] ∨ ∃ pre1, pre = e :: pre1 ∧ evs = pre1 ++ suf := by
  cases pre with
  | nil => exact Or.inl rfl
  | cons a as =>
    simp only [List.cons_append, List.cons.injEq] at h
    exact Or.inr ⟨as, by rw [h.1], h.2⟩

/-- At every point of the writer's run the counter has been incremented once
for each write call made, except possibly the last one, whose increment is
still to come: the increment follows the write call. -/
theorem stdoutWriter_counter_follows (out : Nat → WriteResult) :
    ∀ (recs : List Record) (k : Nat) (pre suf : List WriterEvent),
      stdoutWriter out k recs = pre ++ suf →
        linesWrittenIncs pre ≤ (writeCalls pre).length ∧
        (writeCalls pre).length ≤ linesWrittenIncs pre + 1 := by
  intro recs
  induction recs with
  | nil =>
    intro k pre suf h
    simp only [stdoutWriter] at h
    have : pre = [] := (List.append_eq_nil.mp h.symm).1
    subst this
    simp [linesWrittenIncs, writeCalls]
  | cons d ds ih =>
    intro k pre suf h
    simp only [stdoutWriter] at h
    cases hres : out k with
    | ok =>
      simp only [hres, writerIteration, List.cons_append, List.nil_append] at h
      rcases cons_eq_append_cases h with rfl | ⟨p1, rfl, h1⟩
      · simp [linesWrittenIncs, writeCalls]
      rcases cons_eq_append_cases h1 with rfl | ⟨p2, rfl, h2⟩
      · simp [linesWrittenIncs, writeCalls]
      have := ih (k + 1) p2 suf h2
      simp only [linesWrittenIncs, writeCalls, List.length_cons]
      omega
    | failed n text =>
      simp only [hres, writerIteration, List.cons_append, List.nil_append] at h
      rcases cons_eq_append_cases h with rfl | ⟨p1, rfl, h1⟩
      · simp [linesWrittenIncs, writeCalls]
      rcases cons_eq_append_cases h1 with rfl | ⟨p2, rfl, h2⟩
      · simp [linesWrittenIncs, writeCalls]
      rcases cons_eq_append_cases h2 with rfl | ⟨p3, rfl, h3⟩
      · simp [linesWrittenIncs, writeCalls]
      have := ih (k + 1) p3 suf h3
      simp only [linesWrittenIncs, writeCalls, List.length_cons]
      omega
    | sigpipe n =>
      simp only [hres, writerIteration, WriteResult.returns, List.cons_append,
        List.nil_append, Bool.false_eq_true, if_false] at h
      rcases cons_eq_append_cases h with rfl | ⟨p1, rfl, h1⟩
      · simp [linesWrittenIncs, writeCalls]
      rcases cons_eq_append_cases h1 with rfl | ⟨p2, rfl, h2⟩
      · simp [linesWrittenIncs, writeCalls]
      have hp : p2 = [] := (List.append_eq_nil.mp h2.symm).1
      subst hp
      simp [linesWrittenIncs, writeCalls]

/-- The events of `handleConnection`, the Records among them and the number
of counter increments, for a run with enough fuel. -/
theorem handleConnection_events (fuel : Nat) (c : Conn) (hfuel : c.input.length < fuel) :
    ∃ (evs : List ConnEvent) (recs : List Record) (tail : List Byte),
      handleConnection fuel c = some evs ∧
      evs = .gaugeInc :: (forwardEvents recs ++ onReadError c.err ++ [.gaugeDec]) ∧
      sends evs = recs ∧ linesReadIncs evs = recs.length ∧
      (∀ r ∈ recs, IsLine r) ∧ nl ∉ tail ∧ c.input = recs.flatten ++ tail := by
  obtain ⟨recs, tail, hrun, hl, ht, hc⟩ := handleConnectionLoop_events fuel c hfuel
  refine ⟨_, recs, tail, by simp only [handleConnection, hrun], rfl, ?_, ?_, hl, ht, hc⟩
  · simp only [sends]
    rw [List.append_assoc, sends_forwardEvents]
    cases c.err <;> simp [onReadError, sends]
  · simp only [linesReadIncs]
    rw [List.append_assoc, linesReadIncs_forwardEvents]
    cases c.err <;> simp [onReadError, linesReadIncs]

/-! ## Properties of the line reader -/

/-- C1. For a stream ended by end-of-stream, `handleConnection` returns (given
more fuel than the stream has bytes) and the Records it sends are the
successive newline-terminated segments of the stream in stream order (its
events are one counter increment and one send per Record, then the close):
each Record ends in the delimiter and holds no other one, there is one Record per
delimiter of the stream, and their concatenation is the stream up to and
including its last delimiter (what is left holds no delimiter). -/
theorem handleConnection_sends_lines (fuel : Nat) (c : Conn) (heof : c.err = .eof)
    (hfuel : c.input.length < fuel) :
    ∃ (evs : List ConnEvent) (tail : List Byte),
      handleConnection fuel c = some evs ∧
      evs = .gaugeInc :: (forwardEvents (sends evs) ++ [.close, .gaugeDec]) ∧
      (∀ r ∈ sends evs, IsLine r) ∧
      (sends evs).length = c.input.count nl ∧
      nl ∉ tail ∧ c.input = (sends evs).flatten ++ tail := by
  obtain ⟨evs, recs, tail, hrun, hev, hs, _, hl, ht, hc⟩ := handleConnection_events fuel c hfuel
  refine ⟨evs, tail, hrun, ?_, ?_, ?_, ht, ?_⟩
  · rw [hs, hev, heof]; simp [onReadError]
  · rw [hs]; exact hl
  · rw [hs, hc, count_nl_lines hl ht]
  · rw [hs]; exact hc

/-- Witness for C1: the stream `hi\nx\ny` with seven units of fuel. -/
theorem handleConnection_sends_lines_witness :
    twoLines.err = .eof ∧ twoLines.input.length < 7 ∧
    ∃ (evs : List ConnEvent) (tail : List Byte),
      handleConnection 7 twoLines = some evs ∧
      evs = .gaugeInc :: (forwardEvents (sends evs) ++ [.close, .gaugeDec]) ∧
      (∀ r ∈ sends evs, IsLine r) ∧
      (sends evs).length = twoLines.input.count nl ∧
      nl ∉ tail ∧ twoLines.input = (sends evs).flatten ++ tail :=
  ⟨rfl, by decide, handleConnection_sends_lines 7 twoLines rfl (by decide)⟩

/-- C2. Whatever error ends the stream (end-of-stream or any other read
error), `handleConnection` sends only whole lines, and the bytes after the
last delimiter are not part of anything sent: the stream is the concatenation
of the Records sent followed by a delimiter-free remainder. A stream without
a delimiter sends no Record at all. -/
theorem handleConnection_drops_fragment (fuel : Nat) (c : Conn)
    (hfuel : c.input.length < fuel) :
    ∃ (evs : List ConnEvent) (tail : List Byte),
      handleConnection fuel c = some evs ∧
      (∀ r ∈ sends evs, IsLine r) ∧
      nl ∉ tail ∧ c.input = (sends evs).flatten ++ tail ∧
      (nl ∉ c.input → sends evs = [] ∧ tail = c.input) := by
  obtain ⟨evs, recs, tail, hrun, _, hs, _, hl, ht, hc⟩ := handleConnection_events fuel c hfuel
  refine ⟨evs, tail, hrun, ?_, ht, ?_, ?_⟩
  · rw [hs]; exact hl
  · rw [hs]; exact hc
  · intro hno
    rw [hs]
    have hlen : recs.length = 0 := by
      rw [← count_nl_lines hl ht, ← hc]
      exact List.count_eq_zero_of_not_mem hno
    have hnil : recs = [] := List.length_eq_zero.mp hlen
    subst hnil
    exact ⟨rfl, by simpa using hc.symm⟩

/-- Witness for C2: the stream `partial`, closed without a delimiter, sends
no Record: the task only closes the connection. -/
theorem handleConnection_drops_fragment_witness :
    fragmentOnly.input.length < 8 ∧
    handleConnection 8 fragmentOnly = some [.gaugeInc, .close, .gaugeDec] ∧
    ∃ (evs : List ConnEvent) (tail : List Byte),
      handleConnection 8 fragmentOnly = some evs ∧
      (∀ r ∈ sends evs, IsLine r) ∧
      nl ∉ tail ∧ fragmentOnly.input = (sends evs).flatten ++ tail ∧
      (nl ∉ fragmentOnly.input → sends evs = [] ∧ tail = fragmentOnly.input) :=
  ⟨by decide, by decide, handleConnection_drops_fragment 8 fragmentOnly (by decide)⟩

/-! ## Properties of the writer -/

/-- C7 fails as stated. The write of the second of three Records hits a
broken pipe on standard output: SIGPIPE ends the process, so that failed
write is not logged and the third Record is never written. -/
theorem sigpipe_stops_the_writer :
    stdoutWriter secondKills 0 threeRecords =
      [.write [97, 10], .linesWrittenInc, .write [98, 10], .sigpipe] ∧
    writeCalls (stdoutWriter secondKills 0 threeRecords) = [[97, 10], [98, 10]] ∧
    writeCalls (stdoutWriter secondKills 0 threeRecords) ≠ threeRecords ∧
    writerLogs (stdoutWriter secondKills 0 threeRecords) = 0 :=
  ⟨by decide, by decide, by decide, by decide⟩

/-- C7, amended. Whatever the write outcomes, the write calls the writer makes
are the first Records it received, one call each, in the order received, so
no write is repeated. When every write call returns (with success or with an
error), the write calls are exactly the Records received, the writer calls
`errorLog` once per call that returned an error, and each Record, whatever happened to
the ones before it, gets its own iteration (write call, log line when the call
returned an error, counter) before the writer goes on with the Records after
it. When a write ends the process by SIGPIPE, that write call is the last
event: it is not logged and no later Record is written. -/
theorem stdoutWriter_one_write_per_record (out : Nat → WriteResult) (k : Nat)
    (recs : List Record) :
    (∃ rest, recs = writeCalls (stdoutWriter out k recs) ++ rest) ∧
    (AllReturn out k recs.length →
      writeCalls (stdoutWriter out k recs) = recs ∧
      writerLogs (stdoutWriter out k recs) = failures out k recs.length ∧
      ∀ (pre suf : List Record) (d : Record), recs = pre ++ d :: suf →
        stdoutWriter out k recs =
          stdoutWriter out k pre ++ writerIteration (out (k + pre.length)) d ++
            stdoutWriter out (k + pre.length + 1) suf) ∧
    (∀ (pre suf : List Record) (d : Record), recs = pre ++ d :: suf →
      AllReturn out k pre.length → (out (k + pre.length)).returns = false →
        stdoutWriter out k recs = stdoutWriter out k pre ++ [.write d, .sigpipe]) := by
  refine ⟨writeCalls_stdoutWriter_initial out recs k, ?_, ?_⟩
  · intro hret
    refine ⟨writeCalls_stdoutWriter out recs k hret, writerLogs_stdoutWriter out recs k hret, ?_⟩
    intro pre suf d h
    subst h
    have hpre : AllReturn out k pre.length := fun j hj => hret j (by simp; omega)
    have hd : (out (k + pre.length)).returns = true := hret pre.length (by simp)
    rw [stdoutWriter_append out pre (d :: suf) k hpre]
    simp [stdoutWriter, hd]
  · intro pre suf d h hpre hd
    subst h
    exact stdoutWriter_sigpipe out pre suf d k hpre hd

/-- Witness for C7 as amended: two Records, the write of the second one
returns an error; both are written once, one line is logged, and the second
Record has its iteration. -/
theorem stdoutWriter_one_write_per_record_witness :
    AllReturn secondFails 0 [[97, 10], [98, 10]].length ∧
    stdoutWriter secondFails 0 [[97, 10], [98, 10]] =
      [.write [97, 10], .linesWrittenInc,
       .write [98, 10], .errorLog "failed to write to stdout: no space left on device\n",
       .linesWrittenInc] ∧
    (writeCalls (stdoutWriter secondFails 0 [[97, 10], [98, 10]]) = [[97, 10], [98, 10]] ∧
      writerLogs (stdoutWriter secondFails 0 [[97, 10], [98, 10]]) =
        failures secondFails 0 [[97, 10], [98, 10]].length ∧
      ∀ (pre suf : List Record) (d : Record), [[97, 10], [98, 10]] = pre ++ d :: suf →
        stdoutWriter secondFails 0 [[97, 10], [98, 10]] =
          stdoutWriter secondFails 0 pre ++ writerIteration (secondFails (0 + pre.length)) d ++
            stdoutWriter secondFails (0 + pre.length + 1) suf) ∧
    stdoutWriter secondKills 0 threeRecords =
      stdoutWriter secondKills 0 [[97, 10]] ++ [.write [98, 10], .sigpipe] :=
  ⟨by unfold AllReturn; decide, by decide,
   (stdoutWriter_one_write_per_record secondFails 0 [[97, 10], [98, 10]]).2.1
     (by unfold AllReturn; decide),
   (stdoutWriter_one_write_per_record secondKills 0 threeRecords).2.2
     [[97, 10]] [[99, 10]] [98, 10] rfl (by unfold AllReturn; decide) (by decide)⟩

/-! ## Properties of the counters -/

/-- C10 fails as stated. The write of the second of three Records hits a
broken pipe on standard output: SIGPIPE ends the process before the counter
is incremented for that Record, so three Records were received and the
lines-written counter was incremented once. -/
theorem sigpipe_skips_the_counter :
    stdoutWriter secondKills 0 threeRecords =
      [.write [97, 10], .linesWrittenInc, .write [98, 10], .sigpipe] ∧
    linesWrittenIncs (stdoutWriter secondKills 0 threeRecords) = 1 ∧
    linesWrittenIncs (stdoutWriter secondKills 0 threeRecords) ≠ threeRecords.length :=
  ⟨by decide, by decide, by decide⟩

/-- C10, amended. The lines-read counter is incremented once per Record that
`handleConnection` sends, which is once per delimiter of the stream (never for
the fragment after the last one). When every write call returns, with success
or with an error, the lines-written counter is incremented once per Record
the writer receives. Whatever the outcomes, at every point of the writer's
run the increments are those of the write calls made, the last of which may
still await its increment: each increment follows its write call. A write
that ends the process by SIGPIPE gets no increment: the counter then stands at
the number of Records received before it. -/
theorem counters_track_records (fuel : Nat) (c : Conn) (hfuel : c.input.length < fuel)
    (out : Nat → WriteResult) (k : Nat) (recs : List Record) :
    (∃ evs, handleConnection fuel c = some evs ∧
      linesReadIncs evs = (sends evs).length ∧ linesReadIncs evs = c.input.count nl) ∧
    (AllReturn out k recs.length →
      linesWrittenIncs (stdoutWriter out k recs) = recs.length) ∧
    (∀ (pre suf : List WriterEvent), stdoutWriter out k recs = pre ++ suf →
      linesWrittenIncs pre ≤ (writeCalls pre).length ∧
      (writeCalls pre).length ≤ linesWrittenIncs pre + 1) ∧
    (∀ (pre suf : List Record) (d : Record), recs = pre ++ d :: suf →
      AllReturn out k pre.length → (out (k + pre.length)).returns = false →
        linesWrittenIncs (stdoutWriter out k recs) = pre.length) := by
  refine ⟨?_, linesWrittenIncs_stdoutWriter out recs k,
    stdoutWriter_counter_follows out recs k, ?_⟩
  · obtain ⟨evs, rs, tail, hrun, _, hs, hi, hl, ht, hc⟩ := handleConnection_events fuel c hfuel
    refine ⟨evs, hrun, ?_, ?_⟩
    · rw [hs, hi]
    · rw [hi, hc, count_nl_lines hl ht]
  · intro pre suf d h hpre hd
    subst h
    rw [stdoutWriter_sigpipe out pre suf d k hpre hd, linesWrittenIncs_append,
      linesWrittenIncs_stdoutWriter out pre k hpre]
    simp [linesWrittenIncs]

/-- Witness for C10 as amended: a stream of two lines ended by a read error,
and a writer whose second write returns an error. -/
theorem counters_track_records_witness :
    resetAfterTwo.input.length < 5 ∧
    AllReturn secondFails 0 [[97, 10], [98, 10]].length ∧
    (∃ evs, handleConnection 5 resetAfterTwo = some evs ∧
      linesReadIncs evs = (sends evs).length ∧
      linesReadIncs evs = resetAfterTwo.input.count nl) ∧
    linesWrittenIncs (stdoutWriter secondFails 0 [[97, 10], [98, 10]]) =
      [[97, 10], [98, 10]].length ∧
    linesWrittenIncs (stdoutWriter secondKills 0 threeRecords) = [[97, 10]].length :=
  ⟨by decide, by unfold AllReturn; decide,
   (counters_track_records 5 resetAfterTwo (by decide) secondFails 0 [[97, 10], [98, 10]]).1,
   (counters_track_records 5 resetAfterTwo (by decide) secondFails 0 [[97, 10], [98, 10]]).2.1
     (by unfold AllReturn; decide),
   (counters_track_records 5 resetAfterTwo (by decide) secondKills 0 threeRecords).2.2.2
     [[97, 10]] [[99, 10]] [98, 10] rfl (by unfold AllReturn; decide) (by decide)⟩

/-! ## Properties of the pipeline -/

theorem head_of_singleton {α : Type} {w rest : List α} {r : α} (h : w ++ rest = [r]) :
    w = [] ∨ w = [r] := by
  cases w with
  | nil => exact Or.inl rfl
  | cons a as =>
    simp only [List.cons_append, List.cons.injEq, List.append_eq_nil] at h
    exact Or.inr (by rw [h.1, h.2.1])

/-- What a run of the pipeline over the connections `conns` guarantees, for any
schedule, when every write succeeds. -/
theorem run_facts (out : Nat → WriteResult) (hok : ∀ k, out k = .ok) (conns : List Conn)
    (sched : List Task) (s : Sys)
    (hrun : run out (initSys (conns.map connTask)) sched = some s) :
    Inv (conns.map (fun c => sends (connTask c))) s ∧ s.stdout = s.written.flatten := by
  constructor
  · have h0 := inv_init (conns.map connTask)
    rw [List.map_map] at h0
    exact run_inv sched hrun h0
  · exact run_stdout hok sched hrun rfl

/-- C3 fails as stated: the client sends `a\nb`, which holds exactly one
delimiter; the run below drains the pipeline, and the output stream holds
`a\n`, not the whole sequence. -/
theorem single_client_not_verbatim :
    lineThenFragment.input.count nl = 1 ∧
    ∃ s, run allOk (initSys [connTask lineThenFragment])
        oneLineSchedule = some s ∧
      Quiescent s ∧ s.stdout = [97, 10] ∧ s.stdout ≠ lineThenFragment.input :=
  ⟨by decide, _, rfl, by decide, by decide, by decide⟩

/-- C3, amended. For a byte sequence sent by a single client that holds
exactly one delimiter, with all writes succeeding: the pipeline drains, and in
every drained run the writer has made exactly one write call, whose bytes are
the sequence up to and including the delimiter, verbatim; the output stream
holds exactly those bytes (the whole sequence when the delimiter is its last
byte), and before that it is empty. -/
theorem single_client_one_newline (out : Nat → WriteResult) (hok : ∀ k, out k = .ok)
    (c : Conn) (h1 : c.input.count nl = 1) :
    ∃ (pre post : List Byte), c.input = pre ++ nl :: post ∧ nl ∉ pre ∧ nl ∉ post ∧
      (∃ sched s, run out (initSys [connTask c]) sched = some s ∧ Quiescent s) ∧
      ∀ sched s, run out (initSys [connTask c]) sched = some s →
        (s.stdout = [] ∨ s.stdout = pre ++ [nl]) ∧
        (Quiescent s → s.written = [pre ++ [nl]] ∧ s.stdout = pre ++ [nl] ∧
          (post = [] → s.stdout = c.input)) := by
  obtain ⟨recs, tail, _, hs, hl, ht, hc⟩ := connTask_events c
  have hlen : recs.length = 1 := by rw [← count_nl_lines hl ht, ← hc]; exact h1
  obtain ⟨r, hr⟩ := List.length_eq_one.mp hlen
  subst hr
  obtain ⟨body, hbody, hnot⟩ := hl r (List.mem_singleton_self r)
  subst hbody
  refine ⟨body, tail, by simpa using hc, hnot, ht, exists_quiescent_run out hok _ _ (alive_init _) (le_refl _), ?_⟩
  intro sched s hrun
  obtain ⟨hinv, hout⟩ := run_facts out hok [c] sched s hrun
  simp only [List.map_cons, List.map_nil, hs] at hinv
  refine ⟨?_, ?_⟩
  · have hsh := hinv _ (isShuffle_flatten _)
    have heq := isShuffle_singleton hsh _ rfl
    simp only [inFlight, List.append_assoc] at heq
    rcases head_of_singleton heq with h | h
    · left; rw [hout, h]; rfl
    · right; rw [hout, h]; simp
  · intro hq
    have hw := isShuffle_singleton (inv_quiescent hinv hq) _ rfl
    refine ⟨hw, by rw [hout, hw]; simp, ?_⟩
    intro hp
    rw [hout, hw, hc, hp]
    simp

/-- Witness for C3 as amended: the client sends `hello\n`; the run listed
drains the pipeline and the output stream holds `hello\n`. -/
theorem single_client_one_newline_witness :
    helloLine.input.count nl = 1 ∧
    (∃ s, run allOk (initSys [connTask helloLine])
        oneLineSchedule = some s ∧
      Quiescent s ∧ s.stdout = helloLine.input) ∧
    ∃ (pre post : List Byte), helloLine.input = pre ++ nl :: post ∧ nl ∉ pre ∧ nl ∉ post ∧
      (∃ sched s, run allOk (initSys [connTask helloLine]) sched = some s ∧ Quiescent s) ∧
      ∀ sched s, run allOk (initSys [connTask helloLine]) sched = some s →
        (s.stdout = [] ∨ s.stdout = pre ++ [nl]) ∧
        (Quiescent s → s.written = [pre ++ [nl]] ∧ s.stdout = pre ++ [nl] ∧
          (post = [] → s.stdout = helloLine.input)) :=
  ⟨by decide, ⟨_, rfl, by decide, by decide⟩,
   single_client_one_newline allOk (fun _ => rfl) helloLine (by decide)⟩

/-- C4. For N connections that each send M lines, with all writes succeeding,
and for every schedule of the connection tasks and the writer task: the run
is finite, no state short of the drained one is stuck, the output stream is
at every moment the concatenation of the whole Records written so far, which
extend to an interleaving of the per-connection Record sequences; and once
the pipeline has drained the write calls are such an interleaving, so there
are exactly N×M of them, each a whole line, and each connection's Records
appear among them in the order sent. -/
theorem pipeline_writes_interleave (out : Nat → WriteResult) (hok : ∀ k, out k = .ok)
    (conns : List Conn) (M : Nat) (hM : ∀ c ∈ conns, c.input.count nl = M) :
    (∃ sched s, run out (initSys (conns.map connTask)) sched = some s ∧ Quiescent s) ∧
    ∀ sched s, run out (initSys (conns.map connTask)) sched = some s →
      sched.length ≤ budget (initSys (conns.map connTask)) ∧
      s.stdout = s.written.flatten ∧
      (∃ fut, IsShuffle (conns.map (fun c => sends (connTask c))) (s.written ++ fut)) ∧
      (¬ Quiescent s → ∃ t s1, step out s t = some s1) ∧
      (Quiescent s →
        IsShuffle (conns.map (fun c => sends (connTask c))) s.written ∧
        s.written.length = conns.length * M ∧
        (∀ r ∈ s.written, IsLine r) ∧
        ∀ c ∈ conns, (sends (connTask c)).Sublist s.written) := by
  refine ⟨exists_quiescent_run out hok _ _ (alive_init _) (le_refl _), ?_⟩
  intro sched s hrun
  obtain ⟨hinv, hout⟩ := run_facts out hok conns sched s hrun
  have halive := run_alive hok sched hrun (alive_init _)
  refine ⟨?_, hout, ?_, step_of_not_quiescent out halive.1, ?_⟩
  · have := run_budget sched hrun
    omega
  · refine ⟨writeCalls s.writer ++ s.buffer ++ (s.handlers.map sends).flatten, ?_⟩
    have := hinv _ (isShuffle_flatten _)
    simpa [inFlight, List.append_assoc] using this
  · intro hq
    have hsh := inv_quiescent hinv hq
    refine ⟨hsh, ?_, ?_, ?_⟩
    · rw [hsh.length_eq, List.map_map]
      have : ∀ n ∈ conns.map (List.length ∘ fun c => sends (connTask c)), n = M := by
        intro n hn
        obtain ⟨c, hc, rfl⟩ := List.mem_map.mp hn
        simp only [Function.comp_apply, sends_connTask_length]
        exact hM c hc
      rw [sum_replicate_of_forall this]
      simp
    · intro r hr
      obtain ⟨l, hl, hrl⟩ := hsh.mem r hr
      obtain ⟨c, _, rfl⟩ := List.mem_map.mp hl
      exact sends_connTask_lines c r hrl
    · intro c hc
      obtain ⟨j, hj⟩ := List.mem_iff_getElem?.mp hc
      exact hsh.sublist j _ (by rw [List.getElem?_map, hj]; rfl)

/-- Witness for C4: two clients that send two lines each. In the run listed
the writer takes `a1`, `b1`, `b2`, `a2`; that run is drained, so the theorem
gives the interleaving and the count of four Records for it. -/
theorem pipeline_writes_interleave_witness :
    (∀ c ∈ [clientA, clientB], c.input.count nl = 2) ∧
    ∃ s, run allOk (initSys ([clientA, clientB].map connTask)) twoClientSchedule = some s ∧
      Quiescent s ∧
      s.written = [[97, 49, 10], [98, 49, 10], [98, 50, 10], [97, 50, 10]] ∧
      s.stdout = s.written.flatten ∧
      IsShuffle ([clientA, clientB].map (fun c => sends (connTask c))) s.written ∧
      s.written.length = [clientA, clientB].length * 2 :=
  ⟨by decide, _, rfl, by decide, by decide,
   ((pipeline_writes_interleave allOk (fun _ => rfl) [clientA, clientB] 2 (by decide)).2
      twoClientSchedule _ rfl).2.1,
   (((pipeline_writes_interleave allOk (fun _ => rfl) [clientA, clientB] 2 (by decide)).2
      twoClientSchedule _ rfl).2.2.2.2 (by decide)).1,
   (((pipeline_writes_interleave allOk (fun _ => rfl) [clientA, clientB] 2 (by decide)).2
      twoClientSchedule _ rfl).2.2.2.2 (by decide)).2.1⟩

/-! ## Properties of the acceptor loop -/

theorem acceptCalls_append (a b : List AcceptorEvent) :
    acceptCalls (a ++ b) = acceptCalls a + acceptCalls b := by
  induction a with
  | nil => simp [acceptCalls]
  | cons e es ih => cases e <;> simp [acceptCalls, ih]; omega

theorem chanTryRecv_false {c ch : Chan} (h : chanTryRecv c = (false, ch)) :
    c.buf = 0 ∧ c.blocked = 0 ∧ ch = c := by
  unfold chanTryRecv at h
  split at h
  · simp at h
  · split at h
    · simp at h
    · simp only [Prod.mk.injEq, true_and] at h
      exact ⟨by omega, by omega, h.symm⟩

theorem chanTryRecv_true {c ch : Chan} (h : chanTryRecv c = (true, ch)) :
    (0 < c.buf ∨ 0 < c.blocked) ∧ ch.buf + ch.blocked + 1 = c.buf + c.blocked := by
  unfold chanTryRecv at h
  split at h
  · rename_i hb
    simp only [Prod.mk.injEq, true_and] at h
    subst h
    refine ⟨Or.inl hb, ?_⟩
    split
    · simp only []; omega
    · simp only []; omega
  · split at h
    · rename_i hb hw
      simp only [Prod.mk.injEq, true_and] at h
      subst h
      refine ⟨Or.inr hw, ?_⟩
      simp only []
      omega
    · simp at h

theorem deliverStop_false (c : Chan) : deliverStop false c = c := by
  simp [deliverStop]

theorem deliverStop_true_pos (c : Chan) : 0 < (deliverStop true c).buf := by
  simp only [deliverStop, if_true, chanArrive, chanSend, stopCapacity]
  split
  · rename_i n hn
    split at hn
    · simp only [Option.some.injEq] at hn
      subst hn
      simp
    · simp at hn
  · rename_i hn
    split at hn
    · simp at hn
    · simp only []
      omega

theorem deliverStop_total (b : Bool) (c : Chan) :
    (deliverStop b c).buf + (deliverStop b c).blocked =
      c.buf + c.blocked + (if b then 1 else 0) := by
  cases b with
  | false => simp [deliverStop]
  | true =>
    simp only [deliverStop, if_true, chanArrive, chanSend]
    split
    · rename_i n hn
      split at hn
      · simp only [Option.some.injEq] at hn
        subst hn
        simp only []
        omega
      · simp at hn
    · simp only []
      omega

/-- A check that receives nothing found the channel empty with no send of
`Stop` issued before it, and left the channel as it was. -/
theorem check_found_nothing {b : Bool} {c ch : Chan}
    (h : chanTryRecv (deliverStop b c) = (false, ch)) :
    b = false ∧ c.buf = 0 ∧ c.blocked = 0 ∧ ch = c := by
  obtain ⟨h1, h2, h3⟩ := chanTryRecv_false h
  cases b with
  | true =>
    have := deliverStop_true_pos c
    omega
  | false =>
    rw [deliverStop_false] at h1 h2 h3
    exact ⟨rfl, h1, h2, h3⟩

/-- While the loop has not returned, every check it made found the shutdown
channel empty and left it unchanged, every iteration made one accept call, and
the checks made are one per iteration and one per failed accept call. -/
theorem copyDataLoop_running (env : AcceptEnv) :
    ∀ (fuel : Nat) (st st1 : LoopState), copyDataLoop env fuel st = .running st1 →
      st1.stopChan = st.stopChan ∧ st1.accepts = st.accepts + fuel ∧
      acceptCalls st1.events = acceptCalls st.events + fuel ∧
      (∀ k, st.checks ≤ k → k < st1.checks → env.stopSent k = false) ∧
      (st.checks < st1.checks → st.stopChan.buf = 0 ∧ st.stopChan.blocked = 0) ∧
      st1.checks + failedAccepts env st.accepts =
        st.checks + fuel + failedAccepts env st1.accepts := by
  intro fuel
  induction fuel with
  | zero =>
    intro st st1 h
    simp only [copyDataLoop, LoopResult.running.injEq] at h
    subst h
    exact ⟨rfl, rfl, rfl, fun k h1 h2 => by omega, fun h => by omega, by omega⟩
  | succ n ih =>
    intro st st1 h
    simp only [copyDataLoop] at h
    split at h
    · simp at h
    · rename_i ch hrecv
      obtain ⟨hs0, hb0, hw0, hch⟩ := check_found_nothing hrecv
      subst hch
      split at h
      · rename_i text hacc
        split at h
        · simp at h
        · rename_i ch1 hrecv1
          obtain ⟨hs1, _, _, hch1⟩ := check_found_nothing hrecv1
          subst hch1
          obtain ⟨i1, i2, i3, i4, _, i6⟩ := ih _ st1 h
          simp only [] at i1 i2 i3 i4 i6
          have hfa : failedAccepts env (st.accepts + 1) = failedAccepts env st.accepts + 1 := by
            simp [failedAccepts, hacc]
          refine ⟨i1, by omega, ?_, ?_, fun _ => ⟨hb0, hw0⟩, by omega⟩
          · simp only [acceptCalls_append, acceptCalls] at i3
            omega
          · intro k hk1 hk2
            by_cases h0 : k = st.checks
            · subst h0; exact hs0
            by_cases h1 : k = st.checks + 1
            · subst h1; exact hs1
            exact i4 k (by omega) hk2
      · rename_i c hacc
        obtain ⟨i1, i2, i3, i4, _, i6⟩ := ih _ st1 h
        simp only [] at i1 i2 i3 i4 i6
        have hfa : failedAccepts env (st.accepts + 1) = failedAccepts env st.accepts := by
          simp [failedAccepts, hacc]
        refine ⟨i1, by omega, ?_, ?_, fun _ => ⟨hb0, hw0⟩, by omega⟩
        · simp only [acceptCalls_append, acceptCalls] at i3
          omega
        · intro k hk1 hk2
          by_cases h0 : k = st.checks
          · subst h0; exact hs0
          exact i4 k (by omega) hk2

/-- When the loop returns, it returns nil at the first check that found the
shutdown signal, which is a receive on the channel as the earlier checks left
it; the checks made are one per iteration and one per failed accept call; and
the return is the one at the top of an iteration or the one that follows a
failed accept call. -/
theorem copyDataLoop_returned (env : AcceptEnv) :
    ∀ (fuel : Nat) (st : LoopState) (err : Option Err) (site : ExitPoint) (st1 : LoopState),
      copyDataLoop env fuel st = .returned err site st1 →
        err = none ∧ st.checks < st1.checks ∧
        (∀ k, st.checks ≤ k → k + 1 < st1.checks → env.stopSent k = false) ∧
        (st.checks + 1 < st1.checks → st.stopChan.buf = 0 ∧ st.stopChan.blocked = 0) ∧
        chanTryRecv (deliverStop (env.stopSent (st1.checks - 1)) st.stopChan) =
          (true, st1.stopChan) ∧
        st1.checks + st.accepts + failedAccepts env st.accepts =
          st.checks + st1.accepts + failedAccepts env st1.accepts +
            (if site = .top then 1 else 0) ∧
        (site = .top ∨ (site = .afterFailedAccept ∧ 0 < st1.accepts ∧
          ∃ text, env.accept (st1.accepts - 1) = .failed text)) := by
  intro fuel
  induction fuel with
  | zero => intro st err site st1 h; simp [copyDataLoop] at h
  | succ n ih =>
    intro st err site st1 h
    simp only [copyDataLoop] at h
    split at h
    · rename_i ch hrecv
      simp only [LoopResult.returned.injEq] at h
      obtain ⟨h1, h2, h3⟩ := h
      subst h1 h2 h3
      refine ⟨rfl, by simp, fun k h1 h2 => ?_, fun h => ?_, ?_, by simp; omega, Or.inl rfl⟩
      · simp only [] at h2; omega
      · simp only [] at h; omega
      · simpa using hrecv
    · rename_i ch hrecv
      obtain ⟨hs0, hb0, hw0, hch⟩ := check_found_nothing hrecv
      subst hch
      split at h
      · rename_i text hacc
        have hfa : failedAccepts env (st.accepts + 1) = failedAccepts env st.accepts + 1 := by
          simp [failedAccepts, hacc]
        split at h
        · rename_i ch1 hrecv1
          simp only [LoopResult.returned.injEq] at h
          obtain ⟨h1, h2, h3⟩ := h
          subst h1 h2 h3
          refine ⟨rfl, by simp, fun k h1 h2 => ?_, fun _ => ⟨hb0, hw0⟩, ?_, ?_,
            Or.inr ⟨rfl, by simp, text, by simpa using hacc⟩⟩
          · simp only [] at h2
            have : k = st.checks := by omega
            subst this
            exact hs0
          · simpa using hrecv1
          · simp only [hfa]
            simp
            omega
        · rename_i ch1 hrecv1
          obtain ⟨hs1, _, _, hch1⟩ := check_found_nothing hrecv1
          subst hch1
          obtain ⟨i1, i2, i3, _, i5, i6, i7⟩ := ih _ err site st1 h
          simp only [] at i2 i3 i5 i6
          refine ⟨i1, by omega, fun k hk1 hk2 => ?_, fun _ => ⟨hb0, hw0⟩, i5, by omega, i7⟩
          by_cases h0 : k = st.checks
          · subst h0; exact hs0
          by_cases h1 : k = st.checks + 1
          · subst h1; exact hs1
          exact i3 k (by omega) hk2
      · rename_i c hacc
        have hfa : failedAccepts env (st.accepts + 1) = failedAccepts env st.accepts := by
          simp [failedAccepts, hacc]
        obtain ⟨i1, i2, i3, _, i5, i6, i7⟩ := ih _ err site st1 h
        simp only [] at i2 i3 i5 i6
        refine ⟨i1, by omega, fun k hk1 hk2 => ?_, fun _ => ⟨hb0, hw0⟩, i5, by omega, i7⟩
        by_cases h0 : k = st.checks
        · subst h0; exact hs0
        exact i3 k (by omega) hk2

/-- Once the shutdown signal is set the loop returns: if the channel holds
the signal, or a send of `Stop` is issued before check number `k`, the loop
has returned nil after at most `k + 1` checks, given the fuel to get there. -/
theorem copyDataLoop_returns (env : AcceptEnv) :
    ∀ (fuel : Nat) (st : LoopState) (k : Nat), st.checks ≤ k → k < st.checks + fuel →
      (0 < st.stopChan.buf ∨ env.stopSent k = true) →
        ∃ site st1, copyDataLoop env fuel st = .returned none site st1 ∧
          st1.checks ≤ k + 1 := by
  intro fuel
  induction fuel with
  | zero => intro st k h1 h2 _; omega
  | succ n ih =>
    intro st k hk1 hk2 hsig
    simp only [copyDataLoop]
    split
    · exact ⟨_, _, rfl, by simp only []; omega⟩
    · rename_i ch hrecv
      obtain ⟨hs0, hb0, _, hch⟩ := check_found_nothing hrecv
      subst hch
      have hk : env.stopSent k = true := by
        rcases hsig with h | h
        · omega
        · exact h
      have hne : k ≠ st.checks := by
        intro h
        subst h
        rw [hs0] at hk
        simp at hk
      split
      · split
        · exact ⟨_, _, rfl, by simp only []; omega⟩
        · rename_i ch1 hrecv1
          obtain ⟨hs1, _, _, hch1⟩ := check_found_nothing hrecv1
          subst hch1
          have hne1 : k ≠ st.checks + 1 := by
            intro h
            subst h
            rw [hs1] at hk
            simp at hk
          exact ih _ k (by simp only []; omega) (by simp only []; omega) (Or.inr hk)
      · exact ih _ k (by simp only []; omega) (by simp only []; omega) (Or.inr hk)

/-- C6. The acceptor loop returns only when the shutdown signal has been set.
If the channel is empty and no send of `Stop` ever arrives, then whatever the
accept calls return the loop is still running after any number of iterations
and has made one accept call in each of them, so it calls accept again after
every failure. Whenever the loop has returned, it returned nil, the signal
had been set, and the return was the one at the top of an iteration or the
one right after a failed accept call. -/
theorem copyData_returns_only_on_stop (s : Server) (env : AcceptEnv) (fuel : Nat) :
    (s.stopChan = 0 → (∀ k, env.stopSent k = false) →
      ∃ st, s.copyData env fuel = .running st ∧ st.accepts = fuel ∧
        acceptCalls st.events = fuel) ∧
    (∀ err site st, s.copyData env fuel = .returned err site st →
      err = none ∧
      (0 < s.stopChan ∨ ∃ k, k < st.checks ∧ env.stopSent k = true) ∧
      (site = .top ∨ (site = .afterFailedAccept ∧ 0 < st.accepts ∧
        ∃ text, env.accept (st.accepts - 1) = .failed text))) := by
  constructor
  · intro h0 hno
    cases hres : s.copyData env fuel with
    | running st =>
      obtain ⟨_, h2, h3, _⟩ := copyDataLoop_running env fuel _ st hres
      refine ⟨st, rfl, by simpa using h2, ?_⟩
      simp only [acceptCalls] at h3
      omega
    | returned err site st =>
      obtain ⟨_, _, _, _, h5, _⟩ := copyDataLoop_returned env fuel _ err site st hres
      obtain ⟨hpos, _⟩ := chanTryRecv_true h5
      rw [hno, deliverStop_false] at hpos
      simp only [] at hpos
      omega
  · intro err site st h
    obtain ⟨he, hlt, _, _, h5, _, hsite⟩ := copyDataLoop_returned env fuel _ err site st h
    refine ⟨he, ?_, hsite⟩
    simp only [] at hlt h5
    cases hsent : env.stopSent (st.checks - 1) with
    | true => exact Or.inr ⟨st.checks - 1, by omega, hsent⟩
    | false =>
      obtain ⟨hpos, _⟩ := chanTryRecv_true h5
      rw [hsent, deliverStop_false] at hpos
      simp only [] at hpos
      exact Or.inl (by omega)

/-- Witness for C6: with accept calls that always fail and no `Stop`, the loop
is still running after four iterations and has made four accept calls; with a
`Stop` during the third accept call it returns nil right after that call. -/
theorem copyData_returns_only_on_stop_witness :
    defaultServer.stopChan = 0 ∧ (∀ k, acceptFailsForever.stopSent k = false) ∧
    (∃ st, defaultServer.copyData acceptFailsForever 4 = .running st ∧ st.accepts = 4 ∧
      acceptCalls st.events = 4) ∧
    defaultServer.copyData stopDuringThirdAccept 4 =
      .returned none .afterFailedAccept
        { stopChan := { buf := 0, blocked := 0 }, checks := 6, accepts := 3,
          events := [.goStdoutWriter,
            .accept, .errorLog "accept failed: use of closed network connection\n",
            .accept, .errorLog "accept failed: use of closed network connection\n",
            .accept] } ∧
    (0 < defaultServer.stopChan ∨ ∃ k, k < 6 ∧ stopDuringThirdAccept.stopSent k = true) :=
  ⟨rfl, fun _ => rfl,
   (copyData_returns_only_on_stop defaultServer acceptFailsForever 4).1 rfl (fun _ => rfl),
   by decide,
   ((copyData_returns_only_on_stop defaultServer stopDuringThirdAccept 4).2 none
      .afterFailedAccept
      { stopChan := { buf := 0, blocked := 0 }, checks := 6, accepts := 3,
        events := [.goStdoutWriter,
          .accept, .errorLog "accept failed: use of closed network connection\n",
          .accept, .errorLog "accept failed: use of closed network connection\n",
          .accept] } (by decide)).2.1⟩

/-! ## Properties of startup -/

/-- C5. For every server configuration and whatever the system calls answer,
`Run` makes exactly one listen call: on the Unix address when that address is
not empty (whatever the TCP address is), on the TCP address otherwise. When
`Run` leaves a listener in the server it is the one that call bound; when the
call failed the server is unchanged and `Run` returns an error. The options of
`main.go` put each address in its field. -/
theorem Run_binds_selected_listener (s : Server) (env : RunEnv) :
    listenCalls (s.Run env).events =
      [if s.unixAddr ≠ "" then (Network.unix, s.unixAddr) else (Network.tcp, s.tcpAddr)] ∧
    ((s.Run env).server =
        { s with listener := some (Listener.mk (if s.unixAddr ≠ "" then .unix else .tcp)
            (if s.unixAddr ≠ "" then s.unixAddr else s.tcpAddr) false) } ∨
      ((s.Run env).server = s ∧ ∃ e, (s.Run env).err = some e)) ∧
    ∀ a t u : String,
      New [SetAuxAddress a, SetTCPAddress t, SetUnixAddress u] =
        .ok { tcpAddr := t, unixAddr := u, auxAddr := a, stopChan := 0, listener := none } := by
  refine ⟨?_, ?_, fun a t u => rfl⟩
  · by_cases hu : s.unixAddr = ""
    · cases h : env.listenTCP s.tcpAddr <;>
        simp [Server.Run, hu, tcpListener, h, listenCalls, serveEvents]
    · cases h : env.listenUnix s.unixAddr
      · cases h2 : env.chmod s.unixAddr 0o777 <;>
          simp [Server.Run, hu, unixListener, h, h2, listenCalls, serveEvents]
      · simp [Server.Run, hu, unixListener, h, listenCalls]
  · by_cases hu : s.unixAddr = ""
    · cases h : env.listenTCP s.tcpAddr <;>
        simp [Server.Run, hu, tcpListener, h]
    · cases h : env.listenUnix s.unixAddr
      · cases h2 : env.chmod s.unixAddr 0o777 <;>
          simp [Server.Run, hu, unixListener, h, h2]
      · simp [Server.Run, hu, unixListener, h]

/-- C9. If creating the selected primary listener fails with `cause` (the
Unix listen call, the permission change to 0777 after it, or the TCP listen
call), `Run` returns a non-nil error that wraps `cause` twice, leaves the
server without the listener, and performs no event that starts serving: no
signal subscription, no auxiliary endpoint, no acceptor loop (the task that
starts the writer), no signal watcher. -/
theorem Run_bind_failure (s : Server) (env : RunEnv) (cause : Err)
    (hfail :
      (s.unixAddr ≠ "" ∧ env.listenUnix s.unixAddr = some cause) ∨
      (s.unixAddr ≠ "" ∧ env.listenUnix s.unixAddr = none ∧
        env.chmod s.unixAddr 0o777 = some cause) ∨
      (s.unixAddr = "" ∧ env.listenTCP s.tcpAddr = some cause)) :
    (∃ m1 m2, (s.Run env).err = some (.wrap (.wrap cause m1) m2)) ∧
    (s.Run env).server = s ∧
    (∀ ev ∈ (s.Run env).events, startsServing ev = false) ∧
    RunEvent.goCopyData ∉ (s.Run env).events := by
  rcases hfail with ⟨hu, h⟩ | ⟨hu, h, h2⟩ | ⟨hu, h⟩
  · simp [Server.Run, hu, unixListener, h, startsServing]
  · simp [Server.Run, hu, unixListener, h, h2, startsServing]
  · simp [Server.Run, hu, tcpListener, h, startsServing]

/-- Witness for C9: both addresses are set and the permission change on the
Unix socket file fails. -/
theorem Run_bind_failure_witness :
    (bothServer.Run chmodFails).err =
      some (.wrap (.wrap (.base "operation not permitted")
        "failed to set pemissions on unix socket file") "unix listen failed") ∧
    ((∃ m1 m2, (bothServer.Run chmodFails).err =
        some (.wrap (.wrap (.base "operation not permitted") m1) m2)) ∧
      (bothServer.Run chmodFails).server = bothServer ∧
      (∀ ev ∈ (bothServer.Run chmodFails).events, startsServing ev = false) ∧
      RunEvent.goCopyData ∉ (bothServer.Run chmodFails).events) :=
  ⟨by decide,
   Run_bind_failure bothServer chmodFails (.base "operation not permitted")
     (Or.inr (Or.inl ⟨by decide, rfl, rfl⟩))⟩

/-! ## Properties of the shutdown signal -/

theorem arrivals_zero (env : AcceptEnv) :
    ∀ n, (∀ k, k < n → env.stopSent k = false) → arrivals env n = 0 := by
  intro n
  induction n with
  | zero => intro _; rfl
  | succ m ih =>
    intro h
    simp [arrivals, ih (fun k hk => h k (by omega)), h m (by omega)]

theorem arrivals_last (env : AcceptEnv) (n : Nat) (hn : 0 < n)
    (h : ∀ k, k + 1 < n → env.stopSent k = false) :
    arrivals env n = if env.stopSent (n - 1) then 1 else 0 := by
  cases n with
  | zero => omega
  | succ m =>
    simp [arrivals, arrivals_zero env m (fun k hk => h k (by omega))]

theorem check_leaves_no_sender {b : Bool} {n : Nat} {c : Chan}
    (h : chanTryRecv (deliverStop b { buf := n, blocked := 0 }) = (true, c)) :
    c.blocked = 0 := by
  cases b with
  | false =>
    simp only [deliverStop_false, chanTryRecv, lt_irrefl, if_false] at h
    split at h
    · simp only [Prod.mk.injEq, true_and] at h
      rw [← h]
    · simp at h
  | true =>
    by_cases hn : n < stopCapacity
    · simp only [deliverStop, if_true, chanArrive, chanSend, hn, chanTryRecv, lt_irrefl,
        if_false] at h
      split at h
      · simp only [Prod.mk.injEq, true_and] at h
        rw [← h]
      · simp at h
    · simp only [deliverStop, if_true, chanArrive, chanSend, hn, if_false, chanTryRecv] at h
      split at h
      · simp only [Prod.mk.injEq, true_and] at h
        rw [← h]
        simp
      · simp only [Nat.lt_add_one, if_true, Prod.mk.injEq, true_and] at h
        rw [← h]

/-- C8 fails as stated. On the server that `Run` has started with the default
flags, a first call of `Stop` completes and a second one blocks on its send:
the channel of capacity 1 still holds the first signal. The check of the
acceptor loop is a receive: the loop returns at it and leaves the channel
empty, so a later check of that channel finds no signal. Once the loop has
returned that way, one more `Stop` fills the channel again and the next one
blocks with no receiver left. -/
theorem second_stop_blocks_and_check_consumes :
    (defaultServer.Run okEnv).server = servingServer ∧
    servingServer.Stop = .done stoppedOnce ∧
    stoppedOnce.Stop = .blocked ∧
    stoppedOnce.copyData acceptFailsForever 1 =
      .returned none .top
        { stopChan := { buf := 0, blocked := 0 }, checks := 1, accepts := 0,
          events := [.goStdoutWriter] } ∧
    chanTryRecv { buf := 0, blocked := 0 } = (false, { buf := 0, blocked := 0 }) ∧
    Server.Stop { stoppedOnce with stopChan := 0 } = .done stoppedOnce ∧
    stoppedOnce.Stop = .blocked :=
  ⟨by decide, by decide, by decide, by decide, by decide, by decide, by decide⟩

/-- C8, amended. The shutdown channel has one slot. On a server whose
listener is set, the send of `Stop` completes without blocking when the
channel is empty, as it is on a server made by `New`, and leaves the signal
in it; while the channel holds a signal the send blocks. The acceptor loop
checks the channel at the top of every iteration and after every failed
accept call, by a receive that does not block. A check that finds no signal
leaves the channel unchanged and the loop goes on. The first check that finds
the signal takes exactly one signal out of the channel (a sender that was
blocked then completes into the free slot) and the loop returns nil at that
check, so it makes no later check. Once the signal is set the loop does
return, at the latest at the check that follows. -/
theorem stop_signal_single_slot (s : Server) (l : Listener) (hl : s.listener = some l)
    (env : AcceptEnv) (fuel : Nat) :
    (s.stopChan = 0 →
      s.Stop = .done { s with stopChan := 1, listener := some { l with closed := true } }) ∧
    (s.stopChan = stopCapacity → s.Stop = .blocked) ∧
    (∀ err site st, s.copyData env fuel = .returned err site st →
      err = none ∧
      st.stopChan.buf + 1 = s.stopChan + arrivals env st.checks ∧
      st.stopChan.blocked = 0 ∧
      (0 < s.stopChan ∨ env.stopSent (st.checks - 1) = true) ∧
      (∀ k, k + 1 < st.checks → env.stopSent k = false) ∧
      (1 < st.checks → s.stopChan = 0) ∧
      st.checks = st.accepts + failedAccepts env st.accepts +
        (if site = .top then 1 else 0)) ∧
    (∀ st, s.copyData env fuel = .running st →
      st.stopChan = { buf := s.stopChan, blocked := 0 } ∧
      (∀ k, k < st.checks → env.stopSent k = false) ∧
      (0 < st.checks → s.stopChan = 0) ∧
      st.accepts = fuel ∧
      st.checks = st.accepts + failedAccepts env st.accepts) ∧
    (∀ k, k < fuel → (0 < s.stopChan ∨ env.stopSent k = true) →
      ∃ site st, s.copyData env fuel = .returned none site st ∧ st.checks ≤ k + 1) ∧
    ∀ a t u : String, ∀ s0, New [SetAuxAddress a, SetTCPAddress t, SetUnixAddress u] = .ok s0 →
      s0.stopChan = 0 := by
  refine ⟨?_, ?_, ?_, ?_, ?_, ?_⟩
  · intro h0
    simp [Server.Stop, chanSend, stopCapacity, h0, hl]
  · intro h1
    simp [Server.Stop, chanSend, h1]
  · intro err site st h
    obtain ⟨he, hlt, hfirst, hempty, h5, hcount, _⟩ :=
      copyDataLoop_returned env fuel _ err site st h
    simp only [] at hlt hfirst hempty h5 hcount
    have hblocked := check_leaves_no_sender h5
    obtain ⟨hpos, hsum⟩ := chanTryRecv_true h5
    have htot := deliverStop_total (env.stopSent (st.checks - 1))
      { buf := s.stopChan, blocked := 0 }
    have harr := arrivals_last env st.checks hlt (fun k hk => hfirst k (by omega) hk)
    simp only [] at htot
    refine ⟨he, by omega, hblocked, ?_, fun k hk => hfirst k (by omega) hk,
      fun h1 => (hempty (by omega)).1, ?_⟩
    · cases hsent : env.stopSent (st.checks - 1) with
      | true => exact Or.inr rfl
      | false =>
        rw [hsent, deliverStop_false] at hpos
        simp only [] at hpos
        exact Or.inl (by omega)
    · simp only [failedAccepts] at hcount
      omega
  · intro st h
    obtain ⟨h1, h2, _, h4, h5, h6⟩ := copyDataLoop_running env fuel _ st h
    simp only [] at h1 h2 h4 h5 h6
    refine ⟨h1, fun k hk => h4 k (by omega) hk, fun hpos => (h5 hpos).1, by omega, ?_⟩
    simp only [failedAccepts] at h6
    omega
  · intro k hk hsig
    exact copyDataLoop_returns env fuel _ k (by simp) (by simpa using hk) hsig
  · intro a t u s0 h
    simp only [New, applyOptions, SetAuxAddress, SetTCPAddress, SetUnixAddress,
      Except.ok.injEq] at h
    rw [← h]

/-- Witness for C8 as amended. The first `Stop` on the serving server
completes and the second blocks. With a second `Stop` blocked before the first
check, the loop returns at that check and the blocked sender completes into
the channel. With `Stop` called during the first accept call, which then
fails, the loop returns at the check after that call and leaves the channel
empty. -/
theorem stop_signal_single_slot_witness :
    servingServer.listener =
      some { network := .tcp, addr := "127.0.0.1:4444", closed := false } ∧
    servingServer.Stop = .done stoppedOnce ∧
    stoppedOnce.Stop = .blocked ∧
    stoppedOnce.copyData stopBeforeFirstCheck 1 =
      .returned none .top
        { stopChan := { buf := 1, blocked := 0 }, checks := 1, accepts := 0,
          events := [.goStdoutWriter] } ∧
    servingServer.copyData stopDuringFirstAccept 1 =
      .returned none .afterFailedAccept
        { stopChan := { buf := 0, blocked := 0 }, checks := 2, accepts := 1,
          events := [.goStdoutWriter, .accept] } ∧
    (2 = 1 + failedAccepts stopDuringFirstAccept 1 +
      (if ExitPoint.afterFailedAccept = ExitPoint.top then 1 else 0)) ∧
    ∃ site st, servingServer.copyData stopDuringFirstAccept 3 = .returned none site st ∧
      st.checks ≤ 1 + 1 :=
  ⟨rfl,
   (stop_signal_single_slot servingServer
      { network := .tcp, addr := "127.0.0.1:4444", closed := false } rfl
      acceptFailsForever 0).1 rfl,
   (stop_signal_single_slot stoppedOnce
      { network := .tcp, addr := "127.0.0.1:4444", closed := true } rfl
      acceptFailsForever 0).2.1 rfl,
   by decide, by decide,
   ((stop_signal_single_slot servingServer
      { network := .tcp, addr := "127.0.0.1:4444", closed := false } rfl
      stopDuringFirstAccept 1).2.2.1 none .afterFailedAccept
        { stopChan := { buf := 0, blocked := 0 }, checks := 2, accepts := 1,
          events := [.goStdoutWriter, .accept] } (by decide)).2.2.2.2.2.2,
   (stop_signal_single_slot servingServer
      { network := .tcp, addr := "127.0.0.1:4444", closed := false } rfl
      stopDuringFirstAccept 3).2.2.2.2.1 1 (by decide) (Or.inr (by decide))⟩

end Socket2Stdout
